import Mathlib

/-!
# Verification of the rust_exchange matching engine and position store

Shallow embedding of the core of `rust_exchange`:

* `src/src/orderbook/orderbook.rs` — the order-book ladder and the
  price-time matching loop (`OrderBook`, `add_order`, `match_buy_order`,
  `match_sell_order`, `match_order`, `create_trade`, `update_order_status`,
  `get_bids`, `get_asks`, `store_trades`);
* `src/src/positions.rs` — the position store (`update_position`);
* `src/src/types/{order,trade,position}.rs` — the data model.

Representation choices:
* `BTreeMap<Price, VecDeque<OrderId>>` is embedded as an association list
  sorted in *traversal order*: asks ascending (lowest price first, so
  `best_ask` is the head) and bids descending (highest price first, so
  `best_bid`, which the source reads with `.iter().rev().next()`, is the
  head).  The `VecDeque` FIFO queue is a `List OrderId` whose head is the
  queue front.
* `HashMap<OrderId, Order>` and the position `HashMap` are association
  lists with find / replace / remove helpers.
* `Uuid` is embedded as `Nat` (only identity matters); fresh ids are
  passed in by the caller; timestamps are dropped.
* Rust `u64` quantities are `Nat` (every subtraction in the source is of
  the form `q - min q m`, which never underflows) and `i64` prices and
  signed position quantities are `Int`; the position store's `i64`
  arithmetic is exact unless it panics on overflow, so it is embedded as
  exact `Int` arithmetic with `Int.tdiv` (truncation toward zero, as Rust's
  `/` on `i64`).

The two source loops `match_buy_order` and `match_sell_order` are
line-for-line copies of each other except for the ladder they walk and
the crossing test; they are embedded as one parameterized loop
`matchLoop` applied to `buy_crosses`/asks and `sell_crosses`/bids.
-/

namespace RustExchange


/-- `OrderSide` from src/src/types/order.rs. -/
inductive OrderSide where
  | Buy
  | Sell
deriving DecidableEq, Repr

/-- `OrderType` from src/src/types/order.rs. -/
inductive OrderType where
  | Limit
  | Market
deriving DecidableEq, Repr

/-- `OrderStatus` from src/src/types/order.rs. -/
inductive OrderStatus where
  | Pending
  | PartiallyFilled
  | Filled
  | Cancelled
deriving DecidableEq, Repr

/-- `Order` from src/src/types/order.rs (timestamp dropped;
`quantity` is the remaining quantity). -/
structure Order where
  id : Nat
  user_id : Nat
  side : OrderSide
  order_type : OrderType
  price : Int
  quantity : Nat
  status : OrderStatus
deriving DecidableEq, Repr

/-- `Trade` from src/src/types/trade.rs (id and timestamp dropped).

Modelled from the spec: the fields `maker_user_id` and `taker_user_id`
(spec §3: "**Trade** `{id, maker_order_id, taker_order_id,
maker_user_id, taker_user_id, price, quantity>0, timestamp}`") are
missing from the `Trade` struct in src/src/types/trade.rs, yet
src/src/api/routes.rs and src/tests/trades.rs read them; the struct
that those callers compile against is not in the snapshot. -/
structure Trade where
  maker_order_id : Nat
  taker_order_id : Nat
  maker_user_id : Nat
  taker_user_id : Nat
  price : Int
  quantity : Nat
deriving DecidableEq, Repr

/-- One price level: the FIFO queue of resting order ids
(`VecDeque<OrderId>`; list head = queue front). -/
abbrev Level := List Nat

/-- One side of the book: `BTreeMap<Price, VecDeque<OrderId>>` as an
association list sorted in traversal order (see the file header). -/
abbrev Ladder := List (Int × Level)

/-- The central `HashMap<OrderId, Order>` record map. -/
abbrev OrdersMap := List (Nat × Order)

/-- `OrderBook` from src/src/orderbook/orderbook.rs. -/
structure OrderBook where
  bids : Ladder
  asks : Ladder
  orders : OrdersMap
  trades : List Trade
deriving DecidableEq, Repr

/-- `HashMap::get` on the record map (first match wins, as keys are
unique in every map state the source can build). -/
def findOrder : OrdersMap → Nat → Option Order
  | [], _ => none
  | (k, v) :: rest, i => if k = i then some v else findOrder rest i

/-- `HashMap::insert` on the record map: replace the entry, or append. -/
def insertOrder : OrdersMap → Nat → Order → OrdersMap
  | [], i, o => [(i, o)]
  | (k, v) :: rest, i, o =>
      if k = i then (k, o) :: rest else (k, v) :: insertOrder rest i o

/-- `HashMap::remove` on the record map. -/
def eraseOrder (m : OrdersMap) (i : Nat) : OrdersMap :=
  m.filter (fun kv => kv.1 != i)

/-- `BTreeMap::get` on a ladder (used to state properties about a
price level; the loop itself reads the head, which is where
`best_bid`/`best_ask` point). -/
def levelOf : Ladder → Int → Option Level
  | [], _ => none
  | (p, q) :: rest, x => if p = x then some q else levelOf rest x

/-- `entry(price).or_insert_with(VecDeque::new).push_back(id)` from
`OrderBook::add_order`, keeping the ladder sorted by `lt` (asks:
`· < ·`; bids: `· > ·`, the descending traversal order). -/
def ladderInsert (lt : Int → Int → Bool) : Ladder → Int → Nat → Ladder
  | [], p, i => [(p, [i])]
  | (p0, q) :: rest, p, i =>
      if p = p0 then (p0, q ++ [i]) :: rest
      else if lt p p0 then (p, [i]) :: (p0, q) :: rest
      else (p0, q) :: ladderInsert lt rest p i

/-- Number of queued ids plus levels; the matching loop's termination
measure together with the incoming remaining quantity. -/
def ladderSize (l : Ladder) : Nat :=
  l.foldr (fun pq acc => pq.2.length + 1 + acc) 0

/-- `OrderBook::update_order_status` (src/src/orderbook/orderbook.rs
lines 366–374). -/
def update_order_status (original_qty remaining_qty : Nat) : OrderStatus :=
  if remaining_qty = 0 then OrderStatus.Filled
  else if remaining_qty < original_qty then OrderStatus.PartiallyFilled
  else OrderStatus.Pending

/-- `OrderBook::create_trade` (src/src/orderbook/orderbook.rs lines
353–362), extended with the maker and taker user ids.

Modelled from the spec for the user-id fields (§4.B: "the maker's `id`
and `user_id` are the maker fields, the incoming order's are the taker
fields"); the src `create_trade` builds the reduced `Trade` struct, but
its callers (src/src/api/routes.rs, src/tests/trades.rs) read the user
ids off every emitted trade. -/
def create_trade (maker_order_id : Nat) (maker_user_id : Nat)
    (taker_order_id : Nat) (taker_user_id : Nat)
    (price : Int) (qty : Nat) : Trade :=
  { maker_order_id := maker_order_id
    taker_order_id := taker_order_id
    maker_user_id := maker_user_id
    taker_user_id := taker_user_id
    price := price
    quantity := qty }

/-- The crossing test of `match_buy_order` (src line 139: `if
order.price < ask_price { break }`), i.e. continue iff `!(price <
ask_price)`.

Modelled from the spec for the `Market` arm (§4.B: "for Market, the
incoming `price` is ignored and any level crosses"): the snapshot's
loop has no Market case at all (src `add_order` hard-codes
`OrderType::Limit`, line 39 "Default to Limit for now"), while
src/tests/orderbook.rs drives Market orders through the engine. -/
def buy_crosses (o : Order) (askPrice : Int) : Bool :=
  match o.order_type with
  | OrderType.Market => true
  | OrderType.Limit => !(o.price < askPrice : Bool)

/-- The crossing test of `match_sell_order` (src line 215: `if
order.price > bid_price { break }`); `Market` arm modelled from the
spec exactly as in `buy_crosses`. -/
def sell_crosses (o : Order) (bidPrice : Int) : Bool :=
  match o.order_type with
  | OrderType.Market => true
  | OrderType.Limit => !(o.price > bidPrice : Bool)

/-- The matching loop shared by `match_buy_order` (src lines 126–198)
and `match_sell_order` (src lines 202–274): walk the opposite ladder
from its best price (the list head, by the traversal-order
representation), and while the incoming order has remaining quantity
and the best level crosses, consume the level's FIFO queue from the
front; emit a trade of `min` quantity per maker, decrement both sides,
recompute both statuses, drop filled makers (and emptied levels), and
write partially filled makers back.  Returns the emitted trades, the
updated incoming order, the updated record map and the updated ladder. -/
def matchLoop (crosses : Order → Int → Bool) (orders : OrdersMap)
    (ladder : Ladder) (order : Order) (original_qty : Nat) :
    List Trade × Order × OrdersMap × Ladder :=
  if hq0 : order.quantity = 0 then ([], order, orders, ladder)
  else
    match ladder with
    | [] => ([], order, orders, [])
    | (level_price, queue) :: rest =>
      if crosses order level_price = false then
        ([], order, orders, (level_price, queue) :: rest)
      else
        match queue with
        | [] =>
          -- queue is empty: remove the price level and continue
          matchLoop crosses orders rest order original_qty
        | maker_order_id :: queue_tail =>
          match findOrder orders maker_order_id with
          | none =>
            -- dangling id: pop it, drop the level if emptied, continue
            let ladder' := if queue_tail.isEmpty then rest
                           else (level_price, queue_tail) :: rest
            matchLoop crosses orders ladder' order original_qty
          | some maker =>
            let match_qty := min order.quantity maker.quantity
            let trade := create_trade maker_order_id maker.user_id
                           order.id order.user_id level_price match_qty
            let taker_rem := order.quantity - match_qty
            let order' := { order with
              quantity := taker_rem
              status := update_order_status original_qty taker_rem }
            let maker_rem := maker.quantity - match_qty
            let maker' := { maker with
              quantity := maker_rem
              status := update_order_status (maker_rem + match_qty) maker_rem }
            if hmrem : maker_rem = 0 then
              let orders' := eraseOrder orders maker_order_id
              let ladder' := if queue_tail.isEmpty then rest
                             else (level_price, queue_tail) :: rest
              let r := matchLoop crosses orders' ladder' order' original_qty
              (trade :: r.1, r.2.1, r.2.2.1, r.2.2.2)
            else
              let orders' := insertOrder orders maker_order_id maker'
              let r := matchLoop crosses orders'
                         ((level_price, maker_order_id :: queue_tail) :: rest)
                         order' original_qty
              (trade :: r.1, r.2.1, r.2.2.1, r.2.2.2)
termination_by order.quantity + ladderSize ladder
decreasing_by
  · simp only [ladderSize, List.foldr, List.length_nil]
    omega
  · simp only [ladderSize, List.foldr]
    split <;> simp only [List.foldr, List.length_cons] <;> omega
  · have h1 : order.quantity - min order.quantity maker.quantity ≤ order.quantity :=
      Nat.sub_le _ _
    simp only [ladderSize, List.foldr]
    split <;> simp only [List.foldr, List.length_cons] <;> omega
  · have h2 : ¬(maker.quantity - min order.quantity maker.quantity = 0) := hmrem
    have h3 : ¬(order.quantity = 0) := hq0
    rcases Nat.le_total order.quantity maker.quantity with h | h
    · rw [min_eq_left h] at h2 ⊢
      rw [Nat.sub_self]
      exact Nat.add_lt_add_right (Nat.pos_of_ne_zero h3) _
    · rw [min_eq_right h] at h2
      exact absurd (Nat.sub_self _) h2

/-- `OrderBook::match_buy_order`: run the loop against the asks with
the buy crossing test; `original_qty` is the quantity at entry. -/
def match_buy_order (ob : OrderBook) (order : Order) :
    List Trade × Order × OrderBook :=
  let r := matchLoop buy_crosses ob.orders ob.asks order order.quantity
  (r.1, r.2.1, { ob with orders := r.2.2.1, asks := r.2.2.2 })

/-- `OrderBook::match_sell_order`: run the loop against the bids with
the sell crossing test. -/
def match_sell_order (ob : OrderBook) (order : Order) :
    List Trade × Order × OrderBook :=
  let r := matchLoop sell_crosses ob.orders ob.bids order order.quantity
  (r.1, r.2.1, { ob with orders := r.2.2.1, bids := r.2.2.2 })

/-- `OrderBook::match_order` (src lines 279–287). -/
def match_order (ob : OrderBook) (order : Order) :
    List Trade × Order × OrderBook :=
  match order.side with
  | OrderSide.Buy => match_buy_order ob order
  | OrderSide.Sell => match_sell_order ob order

/-- `OrderBook::store_trades` (src lines 290–301): append, then drop
from the front while more than 1000 trades are held. -/
def store_trades (ob : OrderBook) (ts : List Trade) : OrderBook :=
  let all := ob.trades ++ ts
  { ob with trades := all.drop (all.length - 1000) }

/-- The in-flight order `add_order` constructs (src lines 35–44): a
fresh order with status `Pending`. -/
def mkOrder (id : Nat) (user_id : Nat) (price : Int) (qty : Nat)
    (side : OrderSide) (order_type : OrderType) : Order :=
  { id := id, user_id := user_id, side := side, order_type := order_type
    price := price, quantity := qty, status := OrderStatus.Pending }

/-- `OrderBook::add_order` (src lines 33–76): build the order with
status `Pending`, match it, store the trades, and rest any remainder
on its own side's ladder.  The fresh `Uuid` is passed in as `id`; the
order type is a parameter and the WebSocket broadcast is dropped, as
in the seven-argument `add_order` that src/src/api/routes.rs and
src/tests/orderbook.rs call.

Modelled from the spec for the rest-or-drop guard (§4.B: "Market with
any remainder is dropped; it never rests"): the snapshot's `add_order`
rests every remainder because it hard-codes `OrderType::Limit`;
src/tests/orderbook.rs (`market_buy_partial_fill_does_not_rest`)
pins the Limit-only insertion. -/
def add_order (ob : OrderBook) (id : Nat) (user_id : Nat)
    (price : Int) (qty : Nat) (side : OrderSide) (order_type : OrderType) :
    Order × List Trade × OrderBook :=
  let order : Order := mkOrder id user_id price qty side order_type
  let m := match_order ob order
  let trades := m.1
  let matched := m.2.1
  let ob1 := store_trades m.2.2 trades
  if 0 < matched.quantity ∧ matched.order_type = OrderType.Limit then
    let ob2 := { ob1 with orders := insertOrder ob1.orders matched.id matched }
    match matched.side with
    | OrderSide.Buy =>
        (matched, trades,
          { ob2 with bids := ladderInsert (fun a b => b < a) ob2.bids matched.price matched.id })
    | OrderSide.Sell =>
        (matched, trades,
          { ob2 with asks := ladderInsert (fun a b => a < b) ob2.asks matched.price matched.id })
  else
    (matched, trades, ob1)

/-- The summed remaining quantity of one level's queue, resolved
through the record map: `level.iter().filter_map(orders.get)
.map(quantity).sum()` from `get_bids`/`get_asks`. -/
def level_total (orders : OrdersMap) (q : Level) : Nat :=
  ((q.filterMap (fun i => findOrder orders i)).map Order.quantity).sum

/-- `OrderBook::get_bids` (src lines 320–333): highest price first.
The bids ladder is already stored in that traversal order. -/
def get_bids (ob : OrderBook) : List (Int × Nat) :=
  ob.bids.map (fun pq => (pq.1, level_total ob.orders pq.2))

/-- `OrderBook::get_asks` (src lines 337–349): lowest price first. -/
def get_asks (ob : OrderBook) : List (Int × Nat) :=
  ob.asks.map (fun pq => (pq.1, level_total ob.orders pq.2))

/-! ## The position store (src/src/positions.rs) -/

/-- `Position` from src/src/types/position.rs: signed quantity,
positive = long, negative = short. -/
structure Position where
  user_id : Nat
  symbol : String
  quantity : Int
  average_price : Int
deriving DecidableEq, Repr

abbrev PosKey := Nat × String

/-- The `HashMap<(Uuid, String), Position>` store. -/
abbrev PosStore := List (PosKey × Position)

def findPos : PosStore → PosKey → Option Position
  | [], _ => none
  | (k, v) :: rest, x => if k = x then some v else findPos rest x

def insertPos : PosStore → PosKey → Position → PosStore
  | [], k, v => [(k, v)]
  | (k0, v0) :: rest, k, v =>
      if k0 = k then (k0, v) :: rest else (k0, v0) :: insertPos rest k v

def erasePos (s : PosStore) (k : PosKey) : PosStore :=
  s.filter (fun kv => kv.1 != k)

/-- `str::to_uppercase` restricted to the ASCII symbols the system
uses: uppercase each character of the string (written over the char
list so that it evaluates by kernel reduction). -/
def upperSym (s : String) : String := String.mk (s.data.map Char.toUpper)

/-- The signed delta of one leg: `+qty` for Buy, `−qty` for Sell. -/
def signedDelta (side : OrderSide) (qty : Nat) : Int :=
  match side with
  | OrderSide.Buy => (qty : Int)
  | OrderSide.Sell => -(qty : Int)

/-- `update_position` (src/src/positions.rs lines 17–63): apply one
trade leg.  Weighted average on same-direction accumulation (`i64`
division, truncation toward zero = `Int.tdiv`), average preserved on
reduction, entry deleted when the quantity reaches zero. -/
def update_position (store : PosStore) (user_id : Nat) (symbol : String)
    (side : OrderSide) (trade_price : Int) (trade_qty : Nat) : PosStore :=
  let key : PosKey := (user_id, upperSym symbol)
  let signed_qty := signedDelta side trade_qty
  match findPos store key with
  | some pos =>
    let new_qty := pos.quantity + signed_qty
    if new_qty = 0 then erasePos store key
    else
      let res :=
        if (0 < pos.quantity ∧ 0 < signed_qty) ∨ (pos.quantity < 0 ∧ signed_qty < 0) then
          (new_qty,
           Int.tdiv (pos.average_price * pos.quantity + trade_price * signed_qty) new_qty)
        else (new_qty, pos.average_price)
      insertPos store key
        { user_id := user_id, symbol := upperSym symbol
          quantity := res.1, average_price := res.2 }
  | none =>
    insertPos store key
      { user_id := user_id, symbol := upperSym symbol
        quantity := signedDelta side trade_qty, average_price := trade_price }

/-! ## Specification-level definitions

Derived notions used only to state and prove properties; they are not
part of the embedded program. -/

/-- The sum of the emitted trades' quantities. -/
def sumQty (ts : List Trade) : Nat := (ts.map Trade.quantity).sum

/-- All order ids resting in a ladder, in traversal order. -/
def ladderIds (l : Ladder) : List Nat := (l.map (fun pq => pq.2)).flatten

/-- The total resting liquidity of a ladder, resolved through the
record map (the sum the depth functions also report). -/
def ladderQty (orders : OrdersMap) (l : Ladder) : Nat :=
  (l.map (fun pq => level_total orders pq.2)).sum

/-- One queued id is well-formed at price `p`: it resolves to a record
with positive remaining quantity whose resting price is `p`. -/
def resolvesAt (orders : OrdersMap) (p : Int) (i : Nat) : Prop :=
  match findOrder orders i with
  | some o => 0 < o.quantity ∧ o.price = p
  | none => False

instance (orders : OrdersMap) (p : Int) (i : Nat) : Decidable (resolvesAt orders p i) := by
  unfold resolvesAt
  exact match findOrder orders i with
    | some o => inferInstanceAs (Decidable (_ ∧ _))
    | none => inferInstanceAs (Decidable False)

/-- Ladder hygiene for one side (spec §3, Ladder invariants): no empty
price level, and every queued id resolves to a record with positive
quantity at the level's price. -/
def wfLadder (orders : OrdersMap) (l : Ladder) : Prop :=
  ∀ pq ∈ l, pq.2 ≠ [] ∧ ∀ i ∈ pq.2, resolvesAt orders pq.1 i

instance (orders : OrdersMap) (l : Ladder) : Decidable (wfLadder orders l) :=
  inferInstanceAs (Decidable (∀ pq ∈ l, _ ∧ _))

/-! ## Helper lemmas: association-list maps -/

theorem findOrder_insertOrder_self (m : OrdersMap) (i : Nat) (o : Order) :
    findOrder (insertOrder m i o) i = some o := by
  induction m with
  | nil => simp [insertOrder, findOrder]
  | cons kv rest ih =>
    obtain ⟨k0, v0⟩ := kv
    by_cases h : k0 = i
    · simp [insertOrder, findOrder, h]
    · simp [insertOrder, findOrder, h, ih]

theorem findOrder_insertOrder_ne (m : OrdersMap) (i j : Nat) (o : Order) (h : j ≠ i) :
    findOrder (insertOrder m i o) j = findOrder m j := by
  induction m with
  | nil => simp [insertOrder, findOrder, Ne.symm h]
  | cons kv rest ih =>
    obtain ⟨k0, v0⟩ := kv
    by_cases hk : k0 = i
    · subst hk
      simp [insertOrder, findOrder, Ne.symm h]
    · simp [insertOrder, findOrder, hk, ih]

theorem findOrder_eraseOrder_self (m : OrdersMap) (i : Nat) :
    findOrder (eraseOrder m i) i = none := by
  induction m with
  | nil => simp [eraseOrder, findOrder]
  | cons kv rest ih =>
    obtain ⟨k0, v0⟩ := kv
    by_cases h : k0 = i
    · simpa [eraseOrder, h] using ih
    · simpa [eraseOrder, findOrder, h] using ih

theorem findOrder_eraseOrder_ne (m : OrdersMap) (i j : Nat) (h : j ≠ i) :
    findOrder (eraseOrder m i) j = findOrder m j := by
  induction m with
  | nil => simp [eraseOrder, findOrder]
  | cons kv rest ih =>
    obtain ⟨k0, v0⟩ := kv
    by_cases hk : k0 = i
    · have h1 : eraseOrder ((k0, v0) :: rest) i = eraseOrder rest i := by
        simp [eraseOrder, hk]
      rw [h1, ih, findOrder, if_neg]
      intro hh
      exact h (hh ▸ hk)
    · have h1 : eraseOrder ((k0, v0) :: rest) i = (k0, v0) :: eraseOrder rest i := by
        simp [eraseOrder, hk]
      rw [h1, findOrder, findOrder, ih]

/-! ## Step lemmas for the matching loop

One rewriting lemma per branch of `matchLoop`, mirroring the
iterations of the source's `while` loop. -/

/-- The incoming order as updated by one matching step (src lines
158–160). -/
def takerAfter (o : Order) (original_qty match_qty : Nat) : Order :=
  { o with quantity := o.quantity - match_qty
           status := update_order_status original_qty (o.quantity - match_qty) }

/-- The maker order as updated by one matching step (src lines
163–166; the source recomputes `maker_original_qty` as
`updated.quantity + match_qty`). -/
def makerAfter (maker : Order) (match_qty : Nat) : Order :=
  { maker with
      quantity := maker.quantity - match_qty
      status := update_order_status (maker.quantity - match_qty + match_qty)
                  (maker.quantity - match_qty) }

theorem matchLoop_zero (c : Order → Int → Bool) (os : OrdersMap) (l : Ladder)
    (o : Order) (q : Nat) (h : o.quantity = 0) :
    matchLoop c os l o q = ([], o, os, l) := by
  rw [matchLoop.eq_def]
  simp [h]

theorem matchLoop_nil (c : Order → Int → Bool) (os : OrdersMap) (o : Order) (q : Nat)
    (h : o.quantity ≠ 0) : matchLoop c os [] o q = ([], o, os, []) := by
  rw [matchLoop.eq_def]
  simp [h]

theorem matchLoop_nocross (c : Order → Int → Bool) (os : OrdersMap) (p : Int)
    (queue : Level) (rest : Ladder) (o : Order) (q : Nat)
    (h : o.quantity ≠ 0) (hc : c o p = false) :
    matchLoop c os ((p, queue) :: rest) o q = ([], o, os, (p, queue) :: rest) := by
  rw [matchLoop.eq_def]
  simp [h, hc]

theorem matchLoop_emptyq (c : Order → Int → Bool) (os : OrdersMap) (p : Int)
    (rest : Ladder) (o : Order) (q : Nat)
    (h : o.quantity ≠ 0) (hc : c o p = true) :
    matchLoop c os ((p, []) :: rest) o q = matchLoop c os rest o q := by
  rw [matchLoop.eq_def]
  simp [h, hc]

theorem matchLoop_dangling (c : Order → Int → Bool) (os : OrdersMap) (p : Int)
    (mid : Nat) (qt : Level) (rest : Ladder) (o : Order) (q : Nat)
    (h : o.quantity ≠ 0) (hc : c o p = true) (hm : findOrder os mid = none) :
    matchLoop c os ((p, mid :: qt) :: rest) o q =
      matchLoop c os (if qt.isEmpty then rest else (p, qt) :: rest) o q := by
  rw [matchLoop.eq_def]
  simp [h, hc, hm]

theorem matchLoop_fill (c : Order → Int → Bool) (os : OrdersMap) (p : Int)
    (mid : Nat) (qt : Level) (rest : Ladder) (o : Order) (q : Nat) (maker : Order)
    (h : o.quantity ≠ 0) (hc : c o p = true) (hm : findOrder os mid = some maker)
    (hrem : maker.quantity - min o.quantity maker.quantity = 0) :
    matchLoop c os ((p, mid :: qt) :: rest) o q =
      (create_trade mid maker.user_id o.id o.user_id p (min o.quantity maker.quantity) ::
        (matchLoop c (eraseOrder os mid) (if qt.isEmpty then rest else (p, qt) :: rest)
          (takerAfter o q (min o.quantity maker.quantity)) q).1,
       (matchLoop c (eraseOrder os mid) (if qt.isEmpty then rest else (p, qt) :: rest)
          (takerAfter o q (min o.quantity maker.quantity)) q).2) := by
  rw [matchLoop.eq_def]
  simp [h, hc, hm, hrem, takerAfter]

theorem matchLoop_stay (c : Order → Int → Bool) (os : OrdersMap) (p : Int)
    (mid : Nat) (qt : Level) (rest : Ladder) (o : Order) (q : Nat) (maker : Order)
    (h : o.quantity ≠ 0) (hc : c o p = true) (hm : findOrder os mid = some maker)
    (hrem : maker.quantity - min o.quantity maker.quantity ≠ 0) :
    matchLoop c os ((p, mid :: qt) :: rest) o q =
      (create_trade mid maker.user_id o.id o.user_id p (min o.quantity maker.quantity) ::
        (matchLoop c (insertOrder os mid (makerAfter maker (min o.quantity maker.quantity)))
          ((p, mid :: qt) :: rest)
          (takerAfter o q (min o.quantity maker.quantity)) q).1,
       (matchLoop c (insertOrder os mid (makerAfter maker (min o.quantity maker.quantity)))
          ((p, mid :: qt) :: rest)
          (takerAfter o q (min o.quantity maker.quantity)) q).2) := by
  rw [matchLoop.eq_def]
  simp [h, hc, hm, hrem, takerAfter, makerAfter]

theorem bool_ne_false (b : Bool) (h : ¬ b = false) : b = true := by
  cases b <;> simp_all

theorem takerAfter_quantity (o : Order) (q m : Nat) :
    (takerAfter o q m).quantity = o.quantity - m := rfl

theorem takerAfter_status (o : Order) (q m : Nat) :
    (takerAfter o q m).status = update_order_status q (o.quantity - m) := rfl

/-- The statement of `matchLoop_taker`, as a named predicate so the
functional-induction hypotheses can be re-typed at the unfolded
recursive arguments. -/
def takerSpec (c : Order → Int → Bool) (os : OrdersMap) (l : Ladder)
    (o : Order) (q : Nat) : Prop :=
    ((matchLoop c os l o q).2.1.id = o.id ∧
     (matchLoop c os l o q).2.1.user_id = o.user_id ∧
     (matchLoop c os l o q).2.1.side = o.side ∧
     (matchLoop c os l o q).2.1.order_type = o.order_type ∧
     (matchLoop c os l o q).2.1.price = o.price) ∧
    (sumQty (matchLoop c os l o q).1 + (matchLoop c os l o q).2.1.quantity = o.quantity) ∧
    ((matchLoop c os l o q).1 = [] → (matchLoop c os l o q).2.1 = o) ∧
    ((matchLoop c os l o q).1 ≠ [] →
      (matchLoop c os l o q).2.1.status =
        update_order_status q (matchLoop c os l o q).2.1.quantity)

/-- Master lemma on the incoming order through the loop: identity
fields are untouched, quantities are conserved against the emitted
trades, an empty trade list leaves the order unchanged, and a
non-empty one leaves the status recomputed by `update_order_status`
from the entry quantity. -/
theorem matchLoop_taker (c : Order → Int → Bool) (os : OrdersMap) (l : Ladder)
    (o : Order) (q : Nat) : takerSpec c os l o q := by
  induction os, l, o, q using matchLoop.induct c with
  | case1 orders ladder order oq h =>
    unfold takerSpec
    simp [matchLoop_zero _ _ _ _ _ h, sumQty, h]
  | case2 orders order oq h =>
    unfold takerSpec
    simp [matchLoop_nil _ _ _ _ h, sumQty]
  | case3 orders order oq h p queue rest hc =>
    unfold takerSpec
    simp [matchLoop_nocross _ _ _ _ _ _ _ h hc, sumQty]
  | case4 orders order oq h p rest hc ih =>
    unfold takerSpec at ih ⊢
    rw [matchLoop_emptyq _ _ _ _ _ _ h (bool_ne_false _ hc)]
    exact ih
  | case5 orders order oq h p rest hc mid qt hm lad ih =>
    have ih2 : takerSpec c orders (if qt.isEmpty then rest else (p, qt) :: rest) order oq := ih
    unfold takerSpec at ih2 ⊢
    rw [matchLoop_dangling _ _ _ _ _ _ _ _ h (bool_ne_false _ hc) hm]
    exact ih2
  | case6 orders order oq h p rest hc mid qt maker hm mq trem ord1 mrem hm0 os1 lad ih =>
    have hrem : maker.quantity - min order.quantity maker.quantity = 0 := hm0
    have ih2 : takerSpec c (eraseOrder orders mid)
        (if qt.isEmpty then rest else (p, qt) :: rest)
        (takerAfter order oq (min order.quantity maker.quantity)) oq := ih
    unfold takerSpec at ih2 ⊢
    rw [matchLoop_fill _ _ _ _ _ _ _ _ _ h (bool_ne_false _ hc) hm hrem]
    have hmin : min order.quantity maker.quantity ≤ order.quantity := Nat.min_le_left _ _
    obtain ⟨ihf, ihsum, ihnil, ihst⟩ := ih2
    refine ⟨by simpa [takerAfter] using ihf, ?_, ?_, ?_⟩
    · simp only [sumQty, List.map_cons, List.sum_cons] at ihsum ⊢
      simp only [takerAfter_quantity] at ihsum
      simp only [create_trade]
      omega
    · intro hnil
      simp at hnil
    · intro hne
      rcases hx : (matchLoop c (eraseOrder orders mid)
          (if qt.isEmpty = true then rest else (p, qt) :: rest)
          (takerAfter order oq (min order.quantity maker.quantity)) oq).1 with _ | _
      · rw [ihnil hx]
        rfl
      · exact ihst (by rw [hx]; simp)
  | case7 orders order oq h p rest hc mid qt maker hm mq trem ord1 mrem mk1 hne1 os1 ih =>
    have hrem : maker.quantity - min order.quantity maker.quantity ≠ 0 := hne1
    have ih2 : takerSpec c
        (insertOrder orders mid (makerAfter maker (min order.quantity maker.quantity)))
        ((p, mid :: qt) :: rest)
        (takerAfter order oq (min order.quantity maker.quantity)) oq := ih
    unfold takerSpec at ih2 ⊢
    rw [matchLoop_stay _ _ _ _ _ _ _ _ _ h (bool_ne_false _ hc) hm hrem]
    have hmin : min order.quantity maker.quantity ≤ order.quantity := Nat.min_le_left _ _
    obtain ⟨ihf, ihsum, ihnil, ihst⟩ := ih2
    refine ⟨by simpa [takerAfter] using ihf, ?_, ?_, ?_⟩
    · simp only [sumQty, List.map_cons, List.sum_cons] at ihsum ⊢
      simp only [takerAfter_quantity] at ihsum
      simp only [create_trade]
      omega
    · intro hnil
      simp at hnil
    · intro hne
      rcases hx : (matchLoop c
          (insertOrder orders mid (makerAfter maker (min order.quantity maker.quantity)))
          ((p, mid :: qt) :: rest)
          (takerAfter order oq (min order.quantity maker.quantity)) oq).1 with _ | _
      · rw [ihnil hx]
        rfl
      · exact ihst (by rw [hx]; simp)


/-- The statement of `matchLoop_ladder`: the loop only consumes the
ladder (ids and keys end as sublists), every trade's price is a ladder
key and its maker id a queued id, and record-map entries of orders not
resting in the walked ladder are untouched. -/
def ladderSpec (c : Order → Int → Bool) (os : OrdersMap) (l : Ladder)
    (o : Order) (q : Nat) : Prop :=
    (ladderIds (matchLoop c os l o q).2.2.2).Sublist (ladderIds l) ∧
    ((matchLoop c os l o q).2.2.2.map Prod.fst).Sublist (l.map Prod.fst) ∧
    (∀ t ∈ (matchLoop c os l o q).1, t.price ∈ l.map Prod.fst) ∧
    (∀ t ∈ (matchLoop c os l o q).1, t.maker_order_id ∈ ladderIds l) ∧
    (∀ i, i ∉ ladderIds l → findOrder (matchLoop c os l o q).2.2.1 i = findOrder os i)

theorem ladderIds_cons (p : Int) (queue : Level) (rest : Ladder) :
    ladderIds ((p, queue) :: rest) = queue ++ ladderIds rest := by
  simp [ladderIds]

theorem matchLoop_ladder (c : Order → Int → Bool) (os : OrdersMap) (l : Ladder)
    (o : Order) (q : Nat) : ladderSpec c os l o q := by
  induction os, l, o, q using matchLoop.induct c with
  | case1 orders ladder order oq h =>
    unfold ladderSpec
    simp [matchLoop_zero _ _ _ _ _ h]
  | case2 orders order oq h =>
    unfold ladderSpec
    simp [matchLoop_nil _ _ _ _ h]
  | case3 orders order oq h p queue rest hc =>
    unfold ladderSpec
    simp [matchLoop_nocross _ _ _ _ _ _ _ h hc]
  | case4 orders order oq h p rest hc ih =>
    unfold ladderSpec at ih ⊢
    rw [matchLoop_emptyq _ _ _ _ _ _ h (bool_ne_false _ hc)]
    obtain ⟨i1, i2, i3, i4, i5⟩ := ih
    refine ⟨?_, ?_, ?_, ?_, ?_⟩
    · rw [ladderIds_cons]
      simpa using i1
    · exact i2.trans (List.sublist_cons_self _ _)
    · intro t ht
      exact List.mem_cons_of_mem _ (i3 t ht)
    · intro t ht
      rw [ladderIds_cons]
      simpa using i4 t ht
    · intro i hi
      rw [ladderIds_cons] at hi
      exact i5 i (by simpa using hi)
  | case5 orders order oq h p rest hc mid qt hm lad ih =>
    have ih2 : ladderSpec c orders (if qt.isEmpty then rest else (p, qt) :: rest) order oq := ih
    unfold ladderSpec at ih2 ⊢
    rw [matchLoop_dangling _ _ _ _ _ _ _ _ h (bool_ne_false _ hc) hm]
    obtain ⟨i1, i2, i3, i4, i5⟩ := ih2
    have hsubIds : (ladderIds (if qt.isEmpty then rest else (p, qt) :: rest)).Sublist
        (ladderIds ((p, mid :: qt) :: rest)) := by
      rw [ladderIds_cons]
      split
      · exact (List.sublist_append_right _ _)
      · rw [ladderIds_cons]
        exact ((List.sublist_cons_self mid qt).append_right _)
    have hsubKeys : ((if qt.isEmpty then rest else (p, qt) :: rest).map Prod.fst).Sublist
        (((p, mid :: qt) :: rest).map Prod.fst) := by
      split
      · exact List.sublist_cons_self _ _
      · simp
    refine ⟨i1.trans hsubIds, i2.trans hsubKeys, ?_, ?_, ?_⟩
    · intro t ht
      exact hsubKeys.mem (i3 t ht)
    · intro t ht
      exact hsubIds.mem (i4 t ht)
    · intro i hi
      exact i5 i (fun hmem => hi (hsubIds.mem hmem))
  | case6 orders order oq h p rest hc mid qt maker hm mq trem ord1 mrem hm0 os1 lad ih =>
    have hrem : maker.quantity - min order.quantity maker.quantity = 0 := hm0
    have ih2 : ladderSpec c (eraseOrder orders mid)
        (if qt.isEmpty then rest else (p, qt) :: rest)
        (takerAfter order oq (min order.quantity maker.quantity)) oq := ih
    unfold ladderSpec at ih2 ⊢
    rw [matchLoop_fill _ _ _ _ _ _ _ _ _ h (bool_ne_false _ hc) hm hrem]
    obtain ⟨i1, i2, i3, i4, i5⟩ := ih2
    have hsubIds : (ladderIds (if qt.isEmpty then rest else (p, qt) :: rest)).Sublist
        (ladderIds ((p, mid :: qt) :: rest)) := by
      rw [ladderIds_cons]
      split
      · exact (List.sublist_append_right _ _)
      · rw [ladderIds_cons]
        exact ((List.sublist_cons_self mid qt).append_right _)
    have hsubKeys : ((if qt.isEmpty then rest else (p, qt) :: rest).map Prod.fst).Sublist
        (((p, mid :: qt) :: rest).map Prod.fst) := by
      split
      · exact List.sublist_cons_self _ _
      · simp
    refine ⟨i1.trans hsubIds, i2.trans hsubKeys, ?_, ?_, ?_⟩
    · intro t ht
      rcases List.mem_cons.mp ht with h1 | h1
      · rw [h1]
        simp [create_trade]
      · exact hsubKeys.mem (i3 t h1)
    · intro t ht
      rcases List.mem_cons.mp ht with h1 | h1
      · rw [h1, ladderIds_cons]
        simp [create_trade]
      · exact hsubIds.mem (i4 t h1)
    · intro i hi
      have hne : i ≠ mid := by
        intro hh
        apply hi
        rw [hh, ladderIds_cons]
        simp
      rw [i5 i (fun hmem => hi (hsubIds.mem hmem))]
      exact findOrder_eraseOrder_ne _ _ _ hne
  | case7 orders order oq h p rest hc mid qt maker hm mq trem ord1 mrem mk1 hne1 os1 ih =>
    have hrem : maker.quantity - min order.quantity maker.quantity ≠ 0 := hne1
    have ih2 : ladderSpec c
        (insertOrder orders mid (makerAfter maker (min order.quantity maker.quantity)))
        ((p, mid :: qt) :: rest)
        (takerAfter order oq (min order.quantity maker.quantity)) oq := ih
    unfold ladderSpec at ih2 ⊢
    rw [matchLoop_stay _ _ _ _ _ _ _ _ _ h (bool_ne_false _ hc) hm hrem]
    obtain ⟨i1, i2, i3, i4, i5⟩ := ih2
    refine ⟨i1, i2, ?_, ?_, ?_⟩
    · intro t ht
      rcases List.mem_cons.mp ht with h1 | h1
      · rw [h1]
        simp [create_trade]
      · exact i3 t h1
    · intro t ht
      rcases List.mem_cons.mp ht with h1 | h1
      · rw [h1, ladderIds_cons]
        simp [create_trade]
      · exact i4 t h1
    · intro i hi
      have hne : i ≠ mid := by
        intro hh
        apply hi
        rw [hh, ladderIds_cons]
        simp
      rw [i5 i hi]
      exact findOrder_insertOrder_ne _ _ _ _ hne

theorem level_total_cons (os : OrdersMap) (i : Nat) (q : Level) :
    level_total os (i :: q) =
      (match findOrder os i with
       | some o => o.quantity
       | none => 0) + level_total os q := by
  cases h : findOrder os i <;> simp [level_total, h]

theorem level_total_cons_none (os : OrdersMap) (i : Nat) (q : Level)
    (h : findOrder os i = none) : level_total os (i :: q) = level_total os q := by
  simp [level_total, h]

theorem level_total_cons_some (os : OrdersMap) (i : Nat) (q : Level) (o : Order)
    (h : findOrder os i = some o) :
    level_total os (i :: q) = o.quantity + level_total os q := by
  simp [level_total, h]

theorem level_total_congr (os os2 : OrdersMap) (q : Level)
    (h : ∀ i ∈ q, findOrder os2 i = findOrder os i) :
    level_total os2 q = level_total os q := by
  induction q with
  | nil => rfl
  | cons i rest ih =>
    rw [level_total_cons, level_total_cons, h i (by simp),
        ih (fun j hj => h j (by simp [hj]))]

theorem ladderQty_cons (os : OrdersMap) (p : Int) (q : Level) (rest : Ladder) :
    ladderQty os ((p, q) :: rest) = level_total os q + ladderQty os rest := by
  simp [ladderQty]

theorem ladderQty_congr (os os2 : OrdersMap) (l : Ladder)
    (h : ∀ i ∈ ladderIds l, findOrder os2 i = findOrder os i) :
    ladderQty os2 l = ladderQty os l := by
  induction l with
  | nil => rfl
  | cons pq rest ih =>
    obtain ⟨p, q⟩ := pq
    rw [ladderQty_cons, ladderQty_cons,
        level_total_congr os os2 q
          (fun i hi => h i (by rw [ladderIds_cons]; exact List.mem_append_left _ hi)),
        ih (fun i hi => h i (by rw [ladderIds_cons]; exact List.mem_append_right _ hi))]

/-- The statement of `matchLoop_conserve`: when the queued ids of the
walked ladder are distinct, the resting liquidity consumed by the loop
is exactly the sum of the emitted trade quantities. -/
def conserveSpec (c : Order → Int → Bool) (os : OrdersMap) (l : Ladder)
    (o : Order) (q : Nat) : Prop :=
    (ladderIds l).Nodup →
    ladderQty os l =
      sumQty (matchLoop c os l o q).1 +
        ladderQty (matchLoop c os l o q).2.2.1 (matchLoop c os l o q).2.2.2

theorem matchLoop_conserve (c : Order → Int → Bool) (os : OrdersMap) (l : Ladder)
    (o : Order) (q : Nat) : conserveSpec c os l o q := by
  induction os, l, o, q using matchLoop.induct c with
  | case1 orders ladder order oq h =>
    intro _
    simp [matchLoop_zero _ _ _ _ _ h, sumQty]
  | case2 orders order oq h =>
    intro _
    simp [matchLoop_nil _ _ _ _ h, sumQty]
  | case3 orders order oq h p queue rest hc =>
    intro _
    simp [matchLoop_nocross _ _ _ _ _ _ _ h hc, sumQty]
  | case4 orders order oq h p rest hc ih =>
    have ih2 : conserveSpec c orders rest order oq := ih
    unfold conserveSpec at ih2 ⊢
    intro hnd
    rw [matchLoop_emptyq _ _ _ _ _ _ h (bool_ne_false _ hc), ladderQty_cons]
    have hnd2 : (ladderIds rest).Nodup := by
      rw [ladderIds_cons] at hnd
      simpa using hnd
    rw [ih2 hnd2]
    simp [level_total]
  | case5 orders order oq h p rest hc mid qt hm lad ih =>
    have ih2 : conserveSpec c orders (if qt.isEmpty then rest else (p, qt) :: rest) order oq := ih
    unfold conserveSpec at ih2 ⊢
    intro hnd
    rw [matchLoop_dangling _ _ _ _ _ _ _ _ h (bool_ne_false _ hc) hm]
    rw [ladderIds_cons] at hnd
    have hnd0 : (mid ∉ qt ∧ mid ∉ ladderIds rest) ∧ (qt ++ ladderIds rest).Nodup := by
      simpa using hnd
    have hQ : ladderQty orders ((p, mid :: qt) :: rest) =
        ladderQty orders (if qt.isEmpty then rest else (p, qt) :: rest) := by
      rw [ladderQty_cons, level_total_cons_none orders mid qt hm]
      split
      · rename_i hq
        rw [List.isEmpty_iff.mp hq]
        simp [level_total]
      · rw [ladderQty_cons]
    rw [hQ]
    apply ih2
    split
    · rename_i hq
      have := hnd0.2
      rw [List.isEmpty_iff.mp hq] at this
      simpa using this
    · rw [ladderIds_cons]
      exact hnd0.2
  | case6 orders order oq h p rest hc mid qt maker hm mq trem ord1 mrem hm0 os1 lad ih =>
    have hrem : maker.quantity - min order.quantity maker.quantity = 0 := hm0
    have ih2 : conserveSpec c (eraseOrder orders mid)
        (if qt.isEmpty then rest else (p, qt) :: rest)
        (takerAfter order oq (min order.quantity maker.quantity)) oq := ih
    unfold conserveSpec at ih2 ⊢
    intro hnd
    rw [matchLoop_fill _ _ _ _ _ _ _ _ _ h (bool_ne_false _ hc) hm hrem]
    rw [ladderIds_cons] at hnd
    have hnd0 : (mid ∉ qt ∧ mid ∉ ladderIds rest) ∧ (qt ++ ladderIds rest).Nodup := by
      simpa using hnd
    have hmem : ∀ i, i ∈ ladderIds (if qt.isEmpty then rest else (p, qt) :: rest) → i ≠ mid := by
      intro i hi him
      revert hi
      split
      · intro hi
        exact hnd0.1.2 (him ▸ hi)
      · rw [ladderIds_cons]
        intro hi
        rcases List.mem_append.mp hi with hi | hi
        · exact hnd0.1.1 (him ▸ hi)
        · exact hnd0.1.2 (him ▸ hi)
    have hnd2 : (ladderIds (if qt.isEmpty then rest else (p, qt) :: rest)).Nodup := by
      split
      · rename_i hq
        have := hnd0.2
        rw [List.isEmpty_iff.mp hq] at this
        simpa using this
      · rw [ladderIds_cons]
        exact hnd0.2
    have hcongr : ladderQty (eraseOrder orders mid)
        (if qt.isEmpty then rest else (p, qt) :: rest) =
        ladderQty orders (if qt.isEmpty then rest else (p, qt) :: rest) :=
      ladderQty_congr _ _ _ (fun i hi => findOrder_eraseOrder_ne _ _ _ (hmem i hi))
    have hih := ih2 hnd2
    rw [hcongr] at hih
    have hsplit : ladderQty orders (if qt.isEmpty then rest else (p, qt) :: rest) =
        level_total orders qt + ladderQty orders rest := by
      split
      · rename_i hq
        rw [List.isEmpty_iff.mp hq]
        simp [level_total]
      · rw [ladderQty_cons]
    have hminq : min order.quantity maker.quantity = maker.quantity := by
      have h1 : min order.quantity maker.quantity ≤ maker.quantity := Nat.min_le_right _ _
      omega
    rw [ladderQty_cons, level_total_cons_some orders mid qt maker hm]
    simp only [sumQty, List.map_cons, List.sum_cons, create_trade]
    rw [hsplit] at hih
    simp only [sumQty] at hih
    omega
  | case7 orders order oq h p rest hc mid qt maker hm mq trem ord1 mrem mk1 hne1 os1 ih =>
    have hrem : maker.quantity - min order.quantity maker.quantity ≠ 0 := hne1
    unfold conserveSpec
    intro hnd
    rw [matchLoop_stay _ _ _ _ _ _ _ _ _ h (bool_ne_false _ hc) hm hrem]
    have hminq : min order.quantity maker.quantity = order.quantity := by
      have h1 : min order.quantity maker.quantity ≤ maker.quantity := Nat.min_le_right _ _
      have h2 : min order.quantity maker.quantity = order.quantity ∨
          min order.quantity maker.quantity = maker.quantity := by
        rcases Nat.le_total order.quantity maker.quantity with hh | hh
        · exact Or.inl (min_eq_left hh)
        · exact Or.inr (min_eq_right hh)
      omega
    have hzero : (takerAfter order oq (min order.quantity maker.quantity)).quantity = 0 := by
      rw [takerAfter_quantity, hminq]
      exact Nat.sub_self _
    rw [matchLoop_zero _ _ _ _ _ hzero]
    rw [ladderIds_cons] at hnd
    have hnd0 : (mid ∉ qt ∧ mid ∉ ladderIds rest) ∧ (qt ++ ladderIds rest).Nodup := by
      simpa using hnd
    have hfa : ∀ i, i ∈ ladderIds ((p, qt) :: rest) → i ≠ mid := by
      intro i hi him
      rw [ladderIds_cons] at hi
      rcases List.mem_append.mp hi with hi | hi
      · exact hnd0.1.1 (him ▸ hi)
      · exact hnd0.1.2 (him ▸ hi)
    simp only [sumQty, List.map_cons, List.sum_cons, List.map_nil, List.sum_nil, create_trade]
    rw [ladderQty_cons, ladderQty_cons,
        level_total_cons_some orders mid qt maker hm,
        level_total_cons_some _ mid qt _ (findOrder_insertOrder_self orders mid _)]
    have hc1 : level_total (insertOrder orders mid
        (makerAfter maker (min order.quantity maker.quantity))) qt = level_total orders qt :=
      level_total_congr _ _ _ (fun i hi =>
        findOrder_insertOrder_ne _ _ _ _
          (hfa i (by rw [ladderIds_cons]; exact List.mem_append_left _ hi)))
    have hc2 : ladderQty (insertOrder orders mid
        (makerAfter maker (min order.quantity maker.quantity))) rest = ladderQty orders rest :=
      ladderQty_congr _ _ _ (fun i hi =>
        findOrder_insertOrder_ne _ _ _ _
          (hfa i (by rw [ladderIds_cons]; exact List.mem_append_right _ hi)))
    rw [hc1, hc2]
    have hmk : (makerAfter maker (min order.quantity maker.quantity)).quantity =
        maker.quantity - min order.quantity maker.quantity := rfl
    rw [hmk]
    have h1 : min order.quantity maker.quantity ≤ maker.quantity := Nat.min_le_right _ _
    omega

/-- C2: for every matching invocation with distinct resting ids (as in
every book the source can build, ids being fresh UUIDs), the sum of the
emitted trade quantities equals the incoming order's original quantity
minus its remaining quantity, and equals the total liquidity removed
from the opposite side's resting orders. -/
theorem match_order_conservation (ob : OrderBook) (o : Order)
    (hb : (ladderIds ob.bids).Nodup) (ha : (ladderIds ob.asks).Nodup) :
    (match_order ob o).2.1.quantity ≤ o.quantity ∧
    sumQty (match_order ob o).1 + (match_order ob o).2.1.quantity = o.quantity ∧
    (o.side = OrderSide.Buy →
      ladderQty ob.orders ob.asks =
        sumQty (match_order ob o).1 +
          ladderQty (match_order ob o).2.2.orders (match_order ob o).2.2.asks) ∧
    (o.side = OrderSide.Sell →
      ladderQty ob.orders ob.bids =
        sumQty (match_order ob o).1 +
          ladderQty (match_order ob o).2.2.orders (match_order ob o).2.2.bids) := by
  cases hside : o.side
  · have ht := matchLoop_taker buy_crosses ob.orders ob.asks o o.quantity
    unfold takerSpec at ht
    have hcv := matchLoop_conserve buy_crosses ob.orders ob.asks o o.quantity ha
    simp only [match_order, hside, match_buy_order]
    refine ⟨?_, ht.2.1, fun _ => hcv, fun hcontra => by simp at hcontra⟩
    have := ht.2.1
    omega
  · have ht := matchLoop_taker sell_crosses ob.orders ob.bids o o.quantity
    unfold takerSpec at ht
    have hcv := matchLoop_conserve sell_crosses ob.orders ob.bids o o.quantity hb
    simp only [match_order, hside, match_sell_order]
    refine ⟨?_, ht.2.1, fun hcontra => by simp at hcontra, fun _ => hcv⟩
    have := ht.2.1
    omega

theorem wfLadder_congr (os os2 : OrdersMap) (l : Ladder)
    (h : ∀ i ∈ ladderIds l, findOrder os2 i = findOrder os i)
    (hwf : wfLadder os l) : wfLadder os2 l := by
  intro pq hpq
  refine ⟨(hwf pq hpq).1, fun i hi => ?_⟩
  have hres := (hwf pq hpq).2 i hi
  have hmem : i ∈ ladderIds l := by
    unfold ladderIds
    rw [List.mem_flatten]
    exact ⟨pq.2, List.mem_map_of_mem _ hpq, hi⟩
  unfold resolvesAt at hres ⊢
  rw [h i hmem]
  exact hres

theorem wfLadder_tail (os : OrdersMap) (pq : Int × Level) (rest : Ladder)
    (hwf : wfLadder os (pq :: rest)) : wfLadder os rest :=
  fun pq2 hpq2 => hwf pq2 (List.mem_cons_of_mem _ hpq2)

/-- The statement of `matchLoop_maker`: on a hygienic ladder with
distinct resting ids, every emitted trade carries the maker's resting
price and user id, the incoming order's id and user id as taker
fields, and a strictly positive quantity bounded by both remainders;
afterwards its maker is either gone from the record map (filled) or
left `PartiallyFilled` with a strictly smaller positive remainder. -/
def makerSpec (c : Order → Int → Bool) (os : OrdersMap) (l : Ladder)
    (o : Order) (q : Nat) : Prop :=
    wfLadder os l → (ladderIds l).Nodup →
    ∀ t ∈ (matchLoop c os l o q).1,
      ∃ m, findOrder os t.maker_order_id = some m ∧
        t.price = m.price ∧ t.maker_user_id = m.user_id ∧
        t.taker_order_id = o.id ∧ t.taker_user_id = o.user_id ∧
        0 < t.quantity ∧ t.quantity ≤ m.quantity ∧ t.quantity ≤ o.quantity ∧
        (findOrder (matchLoop c os l o q).2.2.1 t.maker_order_id = none ∨
         ∃ m2, findOrder (matchLoop c os l o q).2.2.1 t.maker_order_id = some m2 ∧
           m2.status = OrderStatus.PartiallyFilled ∧ 0 < m2.quantity ∧
           m2.quantity < m.quantity)

theorem matchLoop_maker (c : Order → Int → Bool) (os : OrdersMap) (l : Ladder)
    (o : Order) (q : Nat) : makerSpec c os l o q := by
  induction os, l, o, q using matchLoop.induct c with
  | case1 orders ladder order oq h =>
    intro _ _
    simp [matchLoop_zero _ _ _ _ _ h]
  | case2 orders order oq h =>
    intro _ _
    simp [matchLoop_nil _ _ _ _ h]
  | case3 orders order oq h p queue rest hc =>
    intro _ _
    simp [matchLoop_nocross _ _ _ _ _ _ _ h hc]
  | case4 orders order oq h p rest hc ih =>
    intro hwf _
    exact absurd rfl (hwf (p, []) (List.mem_cons_self _ _)).1
  | case5 orders order oq h p rest hc mid qt hm lad ih =>
    intro hwf _
    have hres := (hwf (p, mid :: qt) (List.mem_cons_self _ _)).2 mid (by simp)
    unfold resolvesAt at hres
    rw [hm] at hres
    exact hres.elim
  | case6 orders order oq h p rest hc mid qt maker hm mq trem ord1 mrem hm0 os1 lad ih =>
    have hrem : maker.quantity - min order.quantity maker.quantity = 0 := hm0
    have ih2 : makerSpec c (eraseOrder orders mid)
        (if qt.isEmpty then rest else (p, qt) :: rest)
        (takerAfter order oq (min order.quantity maker.quantity)) oq := ih
    unfold makerSpec at ih2 ⊢
    intro hwf hnd
    have hres := (hwf (p, mid :: qt) (List.mem_cons_self _ _)).2 mid (by simp)
    unfold resolvesAt at hres
    rw [hm] at hres
    obtain ⟨hmpos, hmprice⟩ := hres
    rw [ladderIds_cons] at hnd
    have hnd0 : (mid ∉ qt ∧ mid ∉ ladderIds rest) ∧ (qt ++ ladderIds rest).Nodup := by
      simpa using hnd
    have hmem : ∀ i, i ∈ ladderIds (if qt.isEmpty then rest else (p, qt) :: rest) → i ≠ mid := by
      intro i hi him
      revert hi
      split
      · intro hi
        exact hnd0.1.2 (him ▸ hi)
      · rw [ladderIds_cons]
        intro hi
        rcases List.mem_append.mp hi with hi | hi
        · exact hnd0.1.1 (him ▸ hi)
        · exact hnd0.1.2 (him ▸ hi)
    have hnd2 : (ladderIds (if qt.isEmpty then rest else (p, qt) :: rest)).Nodup := by
      split
      · rename_i hq
        have := hnd0.2
        rw [List.isEmpty_iff.mp hq] at this
        simpa using this
      · rw [ladderIds_cons]
        exact hnd0.2
    have hwf2 : wfLadder (eraseOrder orders mid)
        (if qt.isEmpty then rest else (p, qt) :: rest) := by
      apply wfLadder_congr orders
      · exact fun i hi => findOrder_eraseOrder_ne _ _ _ (hmem i hi)
      · split
        · exact wfLadder_tail _ _ _ hwf
        · rename_i hq
          intro pq hpq
          rcases List.mem_cons.mp hpq with h1 | h1
          · rw [h1]
            refine ⟨by simpa using hq, fun i hi => ?_⟩
            exact (hwf (p, mid :: qt) (List.mem_cons_self _ _)).2 i
              (List.mem_cons_of_mem _ hi)
          · exact hwf pq (List.mem_cons_of_mem _ h1)
    have hframe := (matchLoop_ladder c (eraseOrder orders mid)
        (if qt.isEmpty then rest else (p, qt) :: rest)
        (takerAfter order oq (min order.quantity maker.quantity)) oq)
    unfold ladderSpec at hframe
    rw [matchLoop_fill _ _ _ _ _ _ _ _ _ h (bool_ne_false _ hc) hm hrem]
    intro t ht
    rcases List.mem_cons.mp ht with h1 | h1
    · refine ⟨maker, by rw [h1]; exact hm, ?_⟩
      rw [h1]
      refine ⟨by simp [create_trade, hmprice], by simp [create_trade],
              by simp [create_trade], by simp [create_trade], ?_, ?_, ?_, ?_⟩
      · simp only [create_trade]
        have : 0 < min order.quantity maker.quantity := by
          rcases Nat.le_total order.quantity maker.quantity with hh | hh
          · rw [min_eq_left hh]; omega
          · rw [min_eq_right hh]; omega
        exact this
      · simp only [create_trade]
        exact Nat.min_le_right _ _
      · simp only [create_trade]
        exact Nat.min_le_left _ _
      · left
        simp only [create_trade]
        rw [hframe.2.2.2.2 mid (fun hmm => (hmem mid hmm) rfl)]
        exact findOrder_eraseOrder_self _ _
    · obtain ⟨m, hfm, hrest⟩ := ih2 hwf2 hnd2 t h1
      have hmm : t.maker_order_id ∈
          ladderIds (if qt.isEmpty then rest else (p, qt) :: rest) :=
        (matchLoop_ladder c (eraseOrder orders mid) _ _ oq).2.2.2.1 t h1
      refine ⟨m, ?_, hrest.1, hrest.2.1, hrest.2.2.1, hrest.2.2.2.1,
              hrest.2.2.2.2.1, hrest.2.2.2.2.2.1, ?_, hrest.2.2.2.2.2.2.2⟩
      · rw [← hfm]
        exact (findOrder_eraseOrder_ne _ _ _ (hmem _ hmm)).symm
      · have := hrest.2.2.2.2.2.2.1
        rw [takerAfter_quantity] at this
        omega
  | case7 orders order oq h p rest hc mid qt maker hm mq trem ord1 mrem mk1 hne1 os1 ih =>
    have hrem : maker.quantity - min order.quantity maker.quantity ≠ 0 := hne1
    unfold makerSpec
    intro hwf hnd
    have hres := (hwf (p, mid :: qt) (List.mem_cons_self _ _)).2 mid (by simp)
    unfold resolvesAt at hres
    rw [hm] at hres
    obtain ⟨hmpos, hmprice⟩ := hres
    have hminq : min order.quantity maker.quantity = order.quantity := by
      have h1 : min order.quantity maker.quantity ≤ maker.quantity := Nat.min_le_right _ _
      have h2 : min order.quantity maker.quantity = order.quantity ∨
          min order.quantity maker.quantity = maker.quantity := by
        rcases Nat.le_total order.quantity maker.quantity with hh | hh
        · exact Or.inl (min_eq_left hh)
        · exact Or.inr (min_eq_right hh)
      omega
    have hzero : (takerAfter order oq (min order.quantity maker.quantity)).quantity = 0 := by
      rw [takerAfter_quantity, hminq]
      exact Nat.sub_self _
    rw [matchLoop_stay _ _ _ _ _ _ _ _ _ h (bool_ne_false _ hc) hm hrem,
        matchLoop_zero _ _ _ _ _ hzero]
    intro t ht
    rcases List.mem_cons.mp ht with h1 | h1
    · refine ⟨maker, by rw [h1]; exact hm, ?_⟩
      rw [h1]
      refine ⟨by simp [create_trade, hmprice], by simp [create_trade],
              by simp [create_trade], by simp [create_trade], ?_, ?_, ?_, ?_⟩
      · simp only [create_trade]
        rw [hminq]
        omega
      · simp only [create_trade]
        exact Nat.min_le_right _ _
      · simp only [create_trade]
        exact Nat.min_le_left _ _
      · right
        refine ⟨makerAfter maker (min order.quantity maker.quantity), ?_, ?_, ?_, ?_⟩
        · simp only [create_trade]
          exact findOrder_insertOrder_self _ _ _
        · show update_order_status
            (maker.quantity - min order.quantity maker.quantity +
              min order.quantity maker.quantity)
            (maker.quantity - min order.quantity maker.quantity) =
            OrderStatus.PartiallyFilled
          unfold update_order_status
          rw [if_neg hrem, if_pos]
          rw [hminq]
          omega
        · show 0 < maker.quantity - min order.quantity maker.quantity
          omega
        · show maker.quantity - min order.quantity maker.quantity < maker.quantity
          rw [hminq]
          omega
    · simp at h1

/-- The statement of `matchLoop_head_min`: the first emitted trade's
quantity is exactly `min(incoming remaining, maker remaining)` with
the maker resolved in the entry record map (by induction every trade
is the first of its own tail call, with the then-current
remainders). -/
def headMinSpec (c : Order → Int → Bool) (os : OrdersMap) (l : Ladder)
    (o : Order) (q : Nat) : Prop :=
    wfLadder os l →
    ∀ t, (matchLoop c os l o q).1.head? = some t →
      ∃ m, findOrder os t.maker_order_id = some m ∧
        t.quantity = min o.quantity m.quantity

theorem matchLoop_head_min (c : Order → Int → Bool) (os : OrdersMap) (l : Ladder)
    (o : Order) (q : Nat) : headMinSpec c os l o q := by
  induction os, l, o, q using matchLoop.induct c with
  | case1 orders ladder order oq h =>
    intro _ t ht
    rw [matchLoop_zero _ _ _ _ _ h] at ht
    simp at ht
  | case2 orders order oq h =>
    intro _ t ht
    rw [matchLoop_nil _ _ _ _ h] at ht
    simp at ht
  | case3 orders order oq h p queue rest hc =>
    intro _ t ht
    rw [matchLoop_nocross _ _ _ _ _ _ _ h hc] at ht
    simp at ht
  | case4 orders order oq h p rest hc ih =>
    intro hwf
    exact absurd rfl (hwf (p, []) (List.mem_cons_self _ _)).1
  | case5 orders order oq h p rest hc mid qt hm lad ih =>
    intro hwf
    have hres := (hwf (p, mid :: qt) (List.mem_cons_self _ _)).2 mid (by simp)
    unfold resolvesAt at hres
    rw [hm] at hres
    exact hres.elim
  | case6 orders order oq h p rest hc mid qt maker hm mq trem ord1 mrem hm0 os1 lad ih =>
    have hrem : maker.quantity - min order.quantity maker.quantity = 0 := hm0
    intro _ t ht
    rw [matchLoop_fill _ _ _ _ _ _ _ _ _ h (bool_ne_false _ hc) hm hrem] at ht
    simp only [List.head?_cons, Option.some.injEq] at ht
    exact ⟨maker, by rw [← ht]; exact hm, by rw [← ht]; rfl⟩
  | case7 orders order oq h p rest hc mid qt maker hm mq trem ord1 mrem mk1 hne1 os1 ih =>
    have hrem : maker.quantity - min order.quantity maker.quantity ≠ 0 := hne1
    intro _ t ht
    rw [matchLoop_stay _ _ _ _ _ _ _ _ _ h (bool_ne_false _ hc) hm hrem] at ht
    simp only [List.head?_cons, Option.some.injEq] at ht
    exact ⟨maker, by rw [← ht]; exact hm, by rw [← ht]; rfl⟩

/-- C5: on a hygienic book (spec §3's ladder invariants, which every
reachable book satisfies), every trade emitted by matching has the
maker's resting price, the maker's order id and user id as maker
fields, the incoming order's id and user id as taker fields, and a
strictly positive quantity bounded by both remainders; and the first
trade's quantity is exactly `min(incoming remaining, maker remaining)`
(by induction every trade is the first of its own tail call). -/
theorem match_order_trade_fields (ob : OrderBook) (o : Order)
    (hwb : wfLadder ob.orders ob.bids) (hwa : wfLadder ob.orders ob.asks)
    (hb : (ladderIds ob.bids).Nodup) (ha : (ladderIds ob.asks).Nodup) :
    (∀ t ∈ (match_order ob o).1,
      ∃ m, findOrder ob.orders t.maker_order_id = some m ∧
        t.price = m.price ∧ t.maker_user_id = m.user_id ∧
        t.taker_order_id = o.id ∧ t.taker_user_id = o.user_id ∧
        0 < t.quantity ∧ t.quantity ≤ m.quantity ∧ t.quantity ≤ o.quantity) ∧
    (∀ t, (match_order ob o).1.head? = some t →
      ∃ m, findOrder ob.orders t.maker_order_id = some m ∧
        t.quantity = min o.quantity m.quantity) := by
  cases hside : o.side
  · simp only [match_order, hside, match_buy_order]
    constructor
    · intro t ht
      obtain ⟨m, h1, h2, h3, h4, h5, h6, h7, h8, _⟩ :=
        matchLoop_maker buy_crosses ob.orders ob.asks o o.quantity hwa ha t ht
      exact ⟨m, h1, h2, h3, h4, h5, h6, h7, h8⟩
    · exact matchLoop_head_min buy_crosses ob.orders ob.asks o o.quantity hwa
  · simp only [match_order, hside, match_sell_order]
    constructor
    · intro t ht
      obtain ⟨m, h1, h2, h3, h4, h5, h6, h7, h8, _⟩ :=
        matchLoop_maker sell_crosses ob.orders ob.bids o o.quantity hwb hb t ht
      exact ⟨m, h1, h2, h3, h4, h5, h6, h7, h8⟩
    · exact matchLoop_head_min sell_crosses ob.orders ob.bids o o.quantity hwb

/-- C8: the status law.  `update_order_status` satisfies
`Filled ⇔ remaining = 0`, `PartiallyFilled ⇔ 0 < remaining < original`
and `Pending` otherwise; after matching, the incoming order (touched
by at least one step iff a trade was emitted) carries the status
recomputed from its submitted quantity, and every touched maker still
resting in the record map is `PartiallyFilled` with positive remaining
quantity (filled makers are deleted; their last computed status was
`Filled` by the same function). -/
theorem match_order_status_law (ob : OrderBook) (o : Order)
    (hwb : wfLadder ob.orders ob.bids) (hwa : wfLadder ob.orders ob.asks)
    (hb : (ladderIds ob.bids).Nodup) (ha : (ladderIds ob.asks).Nodup) :
    (∀ orig rem : Nat,
      (update_order_status orig rem = OrderStatus.Filled ↔ rem = 0) ∧
      (update_order_status orig rem = OrderStatus.PartiallyFilled ↔
        0 < rem ∧ rem < orig) ∧
      (rem ≠ 0 → ¬(0 < rem ∧ rem < orig) →
        update_order_status orig rem = OrderStatus.Pending)) ∧
    ((match_order ob o).1 ≠ [] →
      (match_order ob o).2.1.status =
        update_order_status o.quantity (match_order ob o).2.1.quantity) ∧
    (∀ t ∈ (match_order ob o).1,
      findOrder (match_order ob o).2.2.orders t.maker_order_id = none ∨
      ∃ m2, findOrder (match_order ob o).2.2.orders t.maker_order_id = some m2 ∧
        m2.status = OrderStatus.PartiallyFilled ∧ 0 < m2.quantity) := by
  refine ⟨?_, ?_, ?_⟩
  · intro orig rem
    unfold update_order_status
    refine ⟨?_, ?_, ?_⟩
    · split
      · simp_all
      · split <;> simp_all
    · split
      · simp_all
      · split
        · rename_i h1 h2
          simp_all
          omega
        · simp_all
    · intro h1 h2
      rw [if_neg h1, if_neg]
      omega
  · cases hside : o.side
    · simp only [match_order, hside, match_buy_order]
      have := matchLoop_taker buy_crosses ob.orders ob.asks o o.quantity
      unfold takerSpec at this
      exact this.2.2.2
    · simp only [match_order, hside, match_sell_order]
      have := matchLoop_taker sell_crosses ob.orders ob.bids o o.quantity
      unfold takerSpec at this
      exact this.2.2.2
  · cases hside : o.side
    · simp only [match_order, hside, match_buy_order]
      intro t ht
      obtain ⟨m, _, _, _, _, _, _, _, _, hpost⟩ :=
        matchLoop_maker buy_crosses ob.orders ob.asks o o.quantity hwa ha t ht
      rcases hpost with h1 | ⟨m2, h1, h2, h3, _⟩
      · exact Or.inl h1
      · exact Or.inr ⟨m2, h1, h2, h3⟩
    · simp only [match_order, hside, match_sell_order]
      intro t ht
      obtain ⟨m, _, _, _, _, _, _, _, _, hpost⟩ :=
        matchLoop_maker sell_crosses ob.orders ob.bids o o.quantity hwb hb t ht
      rcases hpost with h1 | ⟨m2, h1, h2, h3, _⟩
      · exact Or.inl h1
      · exact Or.inr ⟨m2, h1, h2, h3⟩

theorem chain_head_rel (lt : Int → Int → Prop)
    (htrans : ∀ a b d, lt a b → lt b d → lt a d) (p : Int) (ks : List Int)
    (h : List.Chain' lt (p :: ks)) : ∀ k ∈ ks, lt p k := by
  induction ks generalizing p with
  | nil => simp
  | cons k0 rest ih =>
    intro k hk
    have h1 : lt p k0 := h.rel_head
    rcases List.mem_cons.mp hk with h2 | h2
    · rw [h2]
      exact h1
    · exact htrans _ _ _ h1 (ih k0 h.tail k h2)

/-- The statement of `matchLoop_chain`: when the walked ladder's keys
form a strict chain in traversal order, the emitted trade prices walk
the same direction (each next price equal or further along). -/
def chainSpec (lt : Int → Int → Prop) (c : Order → Int → Bool) (os : OrdersMap)
    (l : Ladder) (o : Order) (q : Nat) : Prop :=
    List.Chain' lt (l.map Prod.fst) →
    List.Chain' (fun a b => a = b ∨ lt a b)
      ((matchLoop c os l o q).1.map Trade.price)

theorem matchLoop_chain (lt : Int → Int → Prop)
    (htrans : ∀ a b d, lt a b → lt b d → lt a d)
    (c : Order → Int → Bool) (os : OrdersMap) (l : Ladder) (o : Order) (q : Nat) :
    chainSpec lt c os l o q := by
  induction os, l, o, q using matchLoop.induct c with
  | case1 orders ladder order oq h =>
    intro _
    simp [matchLoop_zero _ _ _ _ _ h]
  | case2 orders order oq h =>
    intro _
    simp [matchLoop_nil _ _ _ _ h]
  | case3 orders order oq h p queue rest hc =>
    intro _
    simp [matchLoop_nocross _ _ _ _ _ _ _ h hc]
  | case4 orders order oq h p rest hc ih =>
    have ih2 : chainSpec lt c orders rest order oq := ih
    unfold chainSpec at ih2 ⊢
    intro hchain
    rw [matchLoop_emptyq _ _ _ _ _ _ h (bool_ne_false _ hc)]
    exact ih2 (by simpa using hchain.tail)
  | case5 orders order oq h p rest hc mid qt hm lad ih =>
    have ih2 : chainSpec lt c orders (if qt.isEmpty then rest else (p, qt) :: rest) order oq := ih
    unfold chainSpec at ih2 ⊢
    intro hchain
    rw [matchLoop_dangling _ _ _ _ _ _ _ _ h (bool_ne_false _ hc) hm]
    apply ih2
    split
    · simpa using hchain.tail
    · simpa using hchain
  | case6 orders order oq h p rest hc mid qt maker hm mq trem ord1 mrem hm0 os1 lad ih =>
    have hrem : maker.quantity - min order.quantity maker.quantity = 0 := hm0
    have ih2 : chainSpec lt c (eraseOrder orders mid)
        (if qt.isEmpty then rest else (p, qt) :: rest)
        (takerAfter order oq (min order.quantity maker.quantity)) oq := ih
    unfold chainSpec at ih2 ⊢
    intro hchain
    rw [matchLoop_fill _ _ _ _ _ _ _ _ _ h (bool_ne_false _ hc) hm hrem]
    have hchain2 : List.Chain' lt
        ((if qt.isEmpty then rest else (p, qt) :: rest).map Prod.fst) := by
      split
      · simpa using hchain.tail
      · simpa using hchain
    simp only [List.map_cons]
    rw [List.chain'_cons']
    constructor
    · intro y hy
      have hy2 : y ∈ ((matchLoop c (eraseOrder orders mid)
          (if qt.isEmpty then rest else (p, qt) :: rest)
          (takerAfter order oq (min order.quantity maker.quantity)) oq).1.map
            Trade.price).head? := hy
      have hmem : y ∈ (matchLoop c (eraseOrder orders mid)
          (if qt.isEmpty then rest else (p, qt) :: rest)
          (takerAfter order oq (min order.quantity maker.quantity)) oq).1.map
            Trade.price := List.mem_of_mem_head? hy2
      obtain ⟨t, ht, hty⟩ := List.mem_map.mp hmem
      have hkey := (matchLoop_ladder c (eraseOrder orders mid)
          (if qt.isEmpty then rest else (p, qt) :: rest)
          (takerAfter order oq (min order.quantity maker.quantity)) oq).2.2.1 t ht
      rw [hty] at hkey
      have hkey2 : y ∈ (p :: rest.map Prod.fst) := by
        revert hkey
        split
        · intro hkey
          exact List.mem_cons_of_mem _ hkey
        · intro hkey
          simpa using hkey
      show (create_trade mid maker.user_id order.id order.user_id p
              (min order.quantity maker.quantity)).price = y ∨
           lt (create_trade mid maker.user_id order.id order.user_id p
              (min order.quantity maker.quantity)).price y
      simp only [create_trade]
      rcases List.mem_cons.mp hkey2 with h2 | h2
      · exact Or.inl h2.symm
      · exact Or.inr (chain_head_rel lt htrans p _ (by simpa using hchain) y h2)
    · exact ih2 hchain2
  | case7 orders order oq h p rest hc mid qt maker hm mq trem ord1 mrem mk1 hne1 os1 ih =>
    have hrem : maker.quantity - min order.quantity maker.quantity ≠ 0 := hne1
    unfold chainSpec
    intro hchain
    have hminq : min order.quantity maker.quantity = order.quantity := by
      have h1 : min order.quantity maker.quantity ≤ maker.quantity := Nat.min_le_right _ _
      have h2 : min order.quantity maker.quantity = order.quantity ∨
          min order.quantity maker.quantity = maker.quantity := by
        rcases Nat.le_total order.quantity maker.quantity with hh | hh
        · exact Or.inl (min_eq_left hh)
        · exact Or.inr (min_eq_right hh)
      omega
    have hzero : (takerAfter order oq (min order.quantity maker.quantity)).quantity = 0 := by
      rw [takerAfter_quantity, hminq]
      exact Nat.sub_self _
    rw [matchLoop_stay _ _ _ _ _ _ _ _ _ h (bool_ne_false _ hc) hm hrem,
        matchLoop_zero _ _ _ _ _ hzero]
    simp [List.chain'_singleton]

theorem levelOf_cons_self (p : Int) (q : Level) (rest : Ladder) :
    levelOf ((p, q) :: rest) p = some q := by
  simp [levelOf]

theorem levelOf_cons_ne (p p0 : Int) (q : Level) (rest : Ladder) (h : p0 ≠ p) :
    levelOf ((p0, q) :: rest) p = levelOf rest p := by
  simp [levelOf, h]

theorem levelOf_none (l : Ladder) (p : Int) (h : p ∉ l.map Prod.fst) :
    levelOf l p = none := by
  induction l with
  | nil => rfl
  | cons pq rest ih =>
    obtain ⟨p0, q⟩ := pq
    have h0 : p0 ≠ p := by
      intro hh
      exact h (by simp [hh])
    rw [levelOf_cons_ne _ _ _ _ h0]
    exact ih (fun hh => h (List.mem_cons_of_mem _ hh))

/-- The statement of `matchLoop_fifo`: with distinct level keys, the
makers of the trades emitted at one price are consumed in queue
order — their ids form a sublist (in order) of that level's FIFO
queue. -/
def fifoSpec (c : Order → Int → Bool) (os : OrdersMap) (l : Ladder)
    (o : Order) (q : Nat) : Prop :=
    (l.map Prod.fst).Nodup →
    ∀ p queue, levelOf l p = some queue →
      (((matchLoop c os l o q).1.filter (fun t => t.price = p)).map
        Trade.maker_order_id).Sublist queue

theorem matchLoop_fifo (c : Order → Int → Bool) (os : OrdersMap) (l : Ladder)
    (o : Order) (q : Nat) : fifoSpec c os l o q := by
  induction os, l, o, q using matchLoop.induct c with
  | case1 orders ladder order oq h =>
    intro _ p queue _
    simp [matchLoop_zero _ _ _ _ _ h]
  | case2 orders order oq h =>
    intro _ p queue _
    simp [matchLoop_nil _ _ _ _ h]
  | case3 orders order oq h p0 queue0 rest hc =>
    intro _ p queue _
    simp [matchLoop_nocross _ _ _ _ _ _ _ h hc]
  | case4 orders order oq h p0 rest hc ih =>
    have ih2 : fifoSpec c orders rest order oq := ih
    unfold fifoSpec at ih2 ⊢
    intro hnd p queue hlev
    rw [matchLoop_emptyq _ _ _ _ _ _ h (bool_ne_false _ hc)]
    simp only [List.map_cons] at hnd
    have hndc := List.nodup_cons.mp hnd
    by_cases hp : p0 = p
    · subst hp
      rw [levelOf_cons_self] at hlev
      have hq0 : queue = [] := by
        simpa using hlev.symm
      rw [hq0]
      have hempty : ((matchLoop c orders rest order oq).1.filter
          (fun t => t.price = p0)) = [] := by
        rw [List.filter_eq_nil_iff]
        intro t ht
        have hkey := (matchLoop_ladder c orders rest order oq).2.2.1 t ht
        simp only [decide_eq_true_eq]
        intro hh
        exact hndc.1 (hh ▸ hkey)
      rw [hempty]
      exact List.Sublist.refl _
    · rw [levelOf_cons_ne _ _ _ _ hp] at hlev
      exact ih2 hndc.2 p queue hlev
  | case5 orders order oq h p0 rest hc mid qt hm lad ih =>
    have ih2 : fifoSpec c orders (if qt.isEmpty then rest else (p0, qt) :: rest) order oq := ih
    unfold fifoSpec at ih2 ⊢
    intro hnd p queue hlev
    rw [matchLoop_dangling _ _ _ _ _ _ _ _ h (bool_ne_false _ hc) hm]
    simp only [List.map_cons] at hnd
    have hndc := List.nodup_cons.mp hnd
    by_cases hqe : qt.isEmpty = true
    · rw [if_pos hqe] at ih2 ⊢
      by_cases hp : p0 = p
      · subst hp
        rw [levelOf_cons_self] at hlev
        have hq0 : mid :: qt = queue := by simpa using hlev
        rw [← hq0]
        have hempty : ((matchLoop c orders rest order oq).1.filter
            (fun t => t.price = p0)) = [] := by
          rw [List.filter_eq_nil_iff]
          intro t ht
          have hkey := (matchLoop_ladder c orders rest order oq).2.2.1 t ht
          simp only [decide_eq_true_eq]
          intro hh
          exact hndc.1 (hh ▸ hkey)
        rw [hempty]
        simp
      · rw [levelOf_cons_ne _ _ _ _ hp] at hlev
        exact ih2 hndc.2 p queue hlev
    · rw [if_neg hqe] at ih2 ⊢
      by_cases hp : p0 = p
      · subst hp
        rw [levelOf_cons_self] at hlev
        have hq0 : mid :: qt = queue := by simpa using hlev
        rw [← hq0]
        have := ih2 (by simp only [List.map_cons]; exact hnd) p0 qt (levelOf_cons_self _ _ _)
        exact this.trans (List.sublist_cons_self _ _)
      · rw [levelOf_cons_ne _ _ _ _ hp] at hlev
        exact ih2 (by simp only [List.map_cons]; exact hnd) p queue
          (by rw [levelOf_cons_ne _ _ _ _ hp]; exact hlev)
  | case6 orders order oq h p0 rest hc mid qt maker hm mq trem ord1 mrem hm0 os1 lad ih =>
    have hrem : maker.quantity - min order.quantity maker.quantity = 0 := hm0
    have ih2 : fifoSpec c (eraseOrder orders mid)
        (if qt.isEmpty then rest else (p0, qt) :: rest)
        (takerAfter order oq (min order.quantity maker.quantity)) oq := ih
    unfold fifoSpec at ih2 ⊢
    intro hnd p queue hlev
    rw [matchLoop_fill _ _ _ _ _ _ _ _ _ h (bool_ne_false _ hc) hm hrem]
    simp only [List.map_cons] at hnd
    have hndc := List.nodup_cons.mp hnd
    by_cases hqe : qt.isEmpty = true
    · rw [if_pos hqe] at ih2 ⊢
      by_cases hp : p0 = p
      · subst hp
        rw [levelOf_cons_self] at hlev
        have hq0 : mid :: qt = queue := by simpa using hlev
        rw [← hq0]
        rw [List.filter_cons_of_pos (by simp [create_trade])]
        simp only [List.map_cons, create_trade]
        have hempty : ((matchLoop c (eraseOrder orders mid) rest
            (takerAfter order oq (min order.quantity maker.quantity)) oq).1.filter
            (fun t => t.price = p0)) = [] := by
          rw [List.filter_eq_nil_iff]
          intro t ht
          have hkey := (matchLoop_ladder c (eraseOrder orders mid) rest
              (takerAfter order oq (min order.quantity maker.quantity)) oq).2.2.1 t ht
          simp only [decide_eq_true_eq]
          intro hh
          exact hndc.1 (hh ▸ hkey)
        rw [hempty]
        simp
      · rw [levelOf_cons_ne _ _ _ _ hp] at hlev
        rw [List.filter_cons_of_neg (by simp [create_trade]; exact fun hh => hp hh)]
        exact ih2 hndc.2 p queue hlev
    · rw [if_neg hqe] at ih2 ⊢
      by_cases hp : p0 = p
      · subst hp
        rw [levelOf_cons_self] at hlev
        have hq0 : mid :: qt = queue := by simpa using hlev
        rw [← hq0]
        rw [List.filter_cons_of_pos (by simp [create_trade])]
        simp only [List.map_cons, create_trade]
        have := ih2 (by simp only [List.map_cons]; exact hnd) p0 qt (levelOf_cons_self _ _ _)
        exact this.cons₂ _
      · rw [levelOf_cons_ne _ _ _ _ hp] at hlev
        rw [List.filter_cons_of_neg (by simp [create_trade]; exact fun hh => hp hh)]
        exact ih2 (by simp only [List.map_cons]; exact hnd) p queue
          (by rw [levelOf_cons_ne _ _ _ _ hp]; exact hlev)
  | case7 orders order oq h p0 rest hc mid qt maker hm mq trem ord1 mrem mk1 hne1 os1 ih =>
    have hrem : maker.quantity - min order.quantity maker.quantity ≠ 0 := hne1
    unfold fifoSpec
    intro hnd p queue hlev
    have hminq : min order.quantity maker.quantity = order.quantity := by
      have h1 : min order.quantity maker.quantity ≤ maker.quantity := Nat.min_le_right _ _
      have h2 : min order.quantity maker.quantity = order.quantity ∨
          min order.quantity maker.quantity = maker.quantity := by
        rcases Nat.le_total order.quantity maker.quantity with hh | hh
        · exact Or.inl (min_eq_left hh)
        · exact Or.inr (min_eq_right hh)
      omega
    have hzero : (takerAfter order oq (min order.quantity maker.quantity)).quantity = 0 := by
      rw [takerAfter_quantity, hminq]
      exact Nat.sub_self _
    rw [matchLoop_stay _ _ _ _ _ _ _ _ _ h (bool_ne_false _ hc) hm hrem,
        matchLoop_zero _ _ _ _ _ hzero]
    by_cases hp : p0 = p
    · subst hp
      rw [levelOf_cons_self] at hlev
      have hq0 : mid :: qt = queue := by simpa using hlev
      rw [← hq0]
      rw [List.filter_cons_of_pos (by simp [create_trade])]
      simp only [List.filter_nil, List.map_cons, List.map_nil, create_trade]
      exact (List.nil_sublist _).cons₂ _
    · rw [List.filter_cons_of_neg (by simp [create_trade]; exact fun hh => hp hh)]
      simp

theorem ladderInsert_tail (ltb : Int → Int → Bool) (l : Ladder) (p : Int) (i : Nat)
    (htrans : ∀ a b d, ltb a b = true → ltb b d = true → ltb a d = true)
    (hirr : ∀ a, ltb a a = false)
    (hchain : List.Chain' (fun a b => ltb a b = true) (l.map Prod.fst)) :
    levelOf (ladderInsert ltb l p i) p = some (((levelOf l p).getD []) ++ [i]) := by
  induction l with
  | nil =>
    simp [ladderInsert, levelOf]
  | cons pq rest ih =>
    obtain ⟨p0, q⟩ := pq
    by_cases hp : p = p0
    · subst hp
      rw [show ladderInsert ltb ((p, q) :: rest) p i = (p, q ++ [i]) :: rest from by
            simp [ladderInsert]]
      rw [levelOf_cons_self, levelOf_cons_self]
      rfl
    · by_cases hlt : ltb p p0 = true
      · rw [show ladderInsert ltb ((p0, q) :: rest) p i = (p, [i]) :: (p0, q) :: rest from by
              simp [ladderInsert, hp, hlt]]
        rw [levelOf_cons_self]
        have hnone : levelOf ((p0, q) :: rest) p = none := by
          apply levelOf_none
          intro hmem
          simp only [List.map_cons] at hmem
          rcases List.mem_cons.mp hmem with h2 | h2
          · exact hp h2
          · have hlt2 := chain_head_rel (fun a b => ltb a b = true)
              (fun a b d hab hbd => htrans a b d hab hbd) p0 (rest.map Prod.fst)
              (by simpa using hchain) p h2
            have : ltb p p = true := htrans _ _ _ hlt hlt2
            rw [hirr] at this
            exact Bool.false_ne_true this
        rw [hnone]
        rfl
      · rw [show ladderInsert ltb ((p0, q) :: rest) p i =
              (p0, q) :: ladderInsert ltb rest p i from by
              simp [ladderInsert, hp, hlt]]
        rw [levelOf_cons_ne _ _ _ _ (fun hh => hp hh.symm),
            levelOf_cons_ne _ _ _ _ (fun hh => hp hh.symm)]
        exact ih (by simpa using hchain.tail)

/-- C3: price-time priority.  On a book whose ladder keys are strictly
sorted in traversal order (asks ascending, bids descending, as
`BTreeMap` keeps them), a Buy taker's trade prices are monotonically
non-decreasing and a Sell taker's non-increasing; within one price
level the maker ids of the trades at that price form an in-order
sublist of the level's FIFO queue (head consumed first); and a new
limit order's id is appended at the tail of its price level's queue by
the resting step, never ahead of earlier orders at the same price. -/
theorem match_order_price_time_priority (ob : OrderBook) (o : Order)
    (hsb : List.Chain' (fun a b => a > b) (ob.bids.map Prod.fst))
    (hsa : List.Chain' (fun a b => a < b) (ob.asks.map Prod.fst)) :
    (o.side = OrderSide.Buy →
      List.Chain' (fun a b => a ≤ b) ((match_order ob o).1.map Trade.price)) ∧
    (o.side = OrderSide.Sell →
      List.Chain' (fun a b => a ≥ b) ((match_order ob o).1.map Trade.price)) ∧
    (o.side = OrderSide.Buy →
      ∀ p queue, levelOf ob.asks p = some queue →
        (((match_order ob o).1.filter (fun t => t.price = p)).map
          Trade.maker_order_id).Sublist queue) ∧
    (o.side = OrderSide.Sell →
      ∀ p queue, levelOf ob.bids p = some queue →
        (((match_order ob o).1.filter (fun t => t.price = p)).map
          Trade.maker_order_id).Sublist queue) ∧
    (∀ (l : Ladder) (p : Int) (i : Nat),
      List.Chain' (fun a b => a < b) (l.map Prod.fst) →
      levelOf (ladderInsert (fun a b => a < b) l p i) p =
        some (((levelOf l p).getD []) ++ [i])) ∧
    (∀ (l : Ladder) (p : Int) (i : Nat),
      List.Chain' (fun a b => a > b) (l.map Prod.fst) →
      levelOf (ladderInsert (fun a b => b < a) l p i) p =
        some (((levelOf l p).getD []) ++ [i])) := by
  have hnda : (ob.asks.map Prod.fst).Nodup := by
    rw [List.chain'_iff_pairwise] at hsa
    exact hsa.nodup
  have hndb : (ob.bids.map Prod.fst).Nodup := by
    rw [List.chain'_iff_pairwise] at hsb
    exact hsb.nodup
  refine ⟨?_, ?_, ?_, ?_, ?_, ?_⟩
  · intro hside
    simp only [match_order, hside, match_buy_order]
    have := matchLoop_chain (fun a b => a < b) (fun a b d h1 h2 => by omega)
      buy_crosses ob.orders ob.asks o o.quantity hsa
    exact this.imp (by intro a b hab; omega)
  · intro hside
    simp only [match_order, hside, match_sell_order]
    have := matchLoop_chain (fun a b => a > b) (fun a b d h1 h2 => by omega)
      sell_crosses ob.orders ob.bids o o.quantity hsb
    exact this.imp (by intro a b hab; omega)
  · intro hside
    simp only [match_order, hside, match_buy_order]
    exact matchLoop_fifo buy_crosses ob.orders ob.asks o o.quantity hnda
  · intro hside
    simp only [match_order, hside, match_sell_order]
    exact matchLoop_fifo sell_crosses ob.orders ob.bids o o.quantity hndb
  · intro l p i hch
    exact ladderInsert_tail _ l p i (fun a b d h1 h2 => by
        simp only [decide_eq_true_eq] at h1 h2 ⊢; omega)
      (fun a => by simp) (by simpa using hch)
  · intro l p i hch
    exact ladderInsert_tail _ l p i (fun a b d h1 h2 => by
        simp only [decide_eq_true_eq] at h1 h2 ⊢; omega)
      (fun a => by simp) (by simpa using hch)

theorem level_total_pos (os : OrdersMap) (p : Int) (q : Level)
    (hne : q ≠ []) (hres : ∀ i ∈ q, resolvesAt os p i) : 0 < level_total os q := by
  cases q with
  | nil => exact absurd rfl hne
  | cons i rest =>
    have h := hres i (List.mem_cons_self _ _)
    unfold resolvesAt at h
    cases hf : findOrder os i with
    | none =>
      rw [hf] at h
      exact h.elim
    | some o =>
      rw [hf] at h
      rw [level_total_cons_some _ _ _ _ hf]
      omega

/-- C7: the depth functions report, for each price level in traversal
order (bids highest-first, asks lowest-first; the ladders are stored
in traversal order), the pair of the level's price and the sum of the
remaining quantities of the order records whose ids sit in that
level's queue; on a hygienic book (spec §3's ladder invariants) no
reported pair has total quantity zero. -/
theorem depth_functions_spec (ob : OrderBook)
    (hwb : wfLadder ob.orders ob.bids) (hwa : wfLadder ob.orders ob.asks) :
    get_bids ob = ob.bids.map (fun pq => (pq.1, level_total ob.orders pq.2)) ∧
    get_asks ob = ob.asks.map (fun pq => (pq.1, level_total ob.orders pq.2)) ∧
    (get_bids ob).map Prod.fst = ob.bids.map Prod.fst ∧
    (get_asks ob).map Prod.fst = ob.asks.map Prod.fst ∧
    (∀ pr ∈ get_bids ob, 0 < pr.2) ∧
    (∀ pr ∈ get_asks ob, 0 < pr.2) := by
  refine ⟨rfl, rfl, by simp [get_bids], by simp [get_asks], ?_, ?_⟩
  · intro pr hpr
    simp only [get_bids, List.mem_map] at hpr
    obtain ⟨pq, hpq, hpr⟩ := hpr
    rw [← hpr]
    exact level_total_pos _ pq.1 pq.2 (hwb pq hpq).1 (hwb pq hpq).2
  · intro pr hpr
    simp only [get_asks, List.mem_map] at hpr
    obtain ⟨pq, hpq, hpr⟩ := hpr
    rw [← hpr]
    exact level_total_pos _ pq.1 pq.2 (hwa pq hpq).1 (hwa pq hpq).2

theorem findPos_insertPos_self (s : PosStore) (k : PosKey) (v : Position) :
    findPos (insertPos s k v) k = some v := by
  induction s with
  | nil => simp [insertPos, findPos]
  | cons kv rest ih =>
    obtain ⟨k0, v0⟩ := kv
    by_cases h : k0 = k
    · simp [insertPos, findPos, h]
    · simp [insertPos, findPos, h, ih]

theorem mem_insertPos (s : PosStore) (k : PosKey) (v : Position) (kv : PosKey × Position)
    (h : kv ∈ insertPos s k v) : kv.2 = v ∨ kv ∈ s := by
  induction s with
  | nil => simp [insertPos] at h; simp [h]
  | cons kv0 rest ih =>
    obtain ⟨k0, v0⟩ := kv0
    by_cases hk : k0 = k
    · simp only [insertPos, if_pos hk, List.mem_cons] at h
      rcases h with h | h
      · left; simp [h]
      · right; simp [h]
    · simp only [insertPos, if_neg hk, List.mem_cons] at h
      rcases h with h | h
      · right; simp [h]
      · rcases ih h with h1 | h1
        · left; exact h1
        · right; simp [h1]

theorem findPos_erasePos_self (s : PosStore) (k : PosKey) :
    findPos (erasePos s k) k = none := by
  induction s with
  | nil => simp [erasePos, findPos]
  | cons kv rest ih =>
    obtain ⟨k0, v0⟩ := kv
    by_cases h : k0 = k
    · simpa [erasePos, h] using ih
    · simpa [erasePos, findPos, h] using ih

theorem mem_erasePos (s : PosStore) (k : PosKey) (kv : PosKey × Position)
    (h : kv ∈ erasePos s k) : kv ∈ s :=
  List.mem_of_mem_filter h

/-! ## Position-store theorems -/

/-- The position store's invariant from spec §3: no stored entry has
quantity zero. -/
def posStoreNoZero (s : PosStore) : Prop := ∀ kv ∈ s, kv.2.quantity ≠ 0

instance (s : PosStore) : Decidable (posStoreNoZero s) :=
  inferInstanceAs (Decidable (∀ kv ∈ s, kv.2.quantity ≠ 0))

/-- C4: applying a leg in the same direction as the existing position
(`sign(old) = sign(delta)`, with `delta = +qty` for Buy and `−qty` for
Sell) stores quantity `old + delta` and the weighted average
`(old_avg·old + price·delta) / (old + delta)` computed in exact integer
arithmetic with truncation toward zero (`Int.tdiv`, as Rust `i64`
division). -/
theorem update_position_same_direction (store : PosStore) (uid : Nat)
    (sym : String) (side : OrderSide) (price : Int) (qty : Nat) (pos : Position)
    (hfind : findPos store (uid, upperSym sym) = some pos)
    (hsame : (0 < pos.quantity ∧ 0 < signedDelta side qty) ∨
             (pos.quantity < 0 ∧ signedDelta side qty < 0)) :
    findPos (update_position store uid sym side price qty) (uid, upperSym sym) =
      some { user_id := uid, symbol := upperSym sym
             quantity := pos.quantity + signedDelta side qty
             average_price := Int.tdiv
               (pos.average_price * pos.quantity + price * signedDelta side qty)
               (pos.quantity + signedDelta side qty) } := by
  have hne : pos.quantity + signedDelta side qty ≠ 0 := by omega
  simp only [update_position, hfind, if_neg hne, if_pos hsame]
  exact findPos_insertPos_self _ _ _

/-- C9: applying a leg in the opposite direction (reducing or
flipping) that does not bring the quantity exactly to zero stores
quantity `old + delta` and preserves the old average price. -/
theorem update_position_opposite_direction (store : PosStore) (uid : Nat)
    (sym : String) (side : OrderSide) (price : Int) (qty : Nat) (pos : Position)
    (hfind : findPos store (uid, upperSym sym) = some pos)
    (hopp : ¬ ((0 < pos.quantity ∧ 0 < signedDelta side qty) ∨
               (pos.quantity < 0 ∧ signedDelta side qty < 0)))
    (hne : pos.quantity + signedDelta side qty ≠ 0) :
    findPos (update_position store uid sym side price qty) (uid, upperSym sym) =
      some { user_id := uid, symbol := upperSym sym
             quantity := pos.quantity + signedDelta side qty
             average_price := pos.average_price } := by
  simp only [update_position, hfind, if_neg hne, if_neg hopp]
  exact findPos_insertPos_self _ _ _

/-- C6, counterexample: a Buy leg of quantity 0 against an empty store
creates an entry whose quantity is 0, so the zero-free invariant is
not preserved by every `update_position` call. -/
theorem update_position_zero_qty_cex :
    posStoreNoZero [] ∧
    ¬ posStoreNoZero (update_position [] 0 "X" OrderSide.Buy 100 0) := by
  constructor
  · intro kv h
    simp at h
  · intro h
    have := h ((0, upperSym "X"),
      { user_id := 0, symbol := upperSym "X", quantity := 0, average_price := 100 })
    simp [update_position, findPos, insertPos, signedDelta] at this

/-- C6, amended: every `update_position` call whose leg has positive
quantity (as every emitted trade leg does) preserves the zero-free
invariant, and whenever `old + delta = 0` the `(user, symbol)` entry
is deleted from the store. -/
theorem update_position_no_zero (store : PosStore) (uid : Nat) (sym : String)
    (side : OrderSide) (price : Int) (qty : Nat)
    (hq : 0 < qty) (hinv : posStoreNoZero store) :
    posStoreNoZero (update_position store uid sym side price qty) ∧
    (∀ pos, findPos store (uid, upperSym sym) = some pos →
      pos.quantity + signedDelta side qty = 0 →
      findPos (update_position store uid sym side price qty) (uid, upperSym sym) = none) := by
  have hd : signedDelta side qty ≠ 0 := by
    cases side <;> simp [signedDelta] <;> omega
  constructor
  · intro kv hmem
    simp only [update_position] at hmem
    cases hfind : findPos store (uid, upperSym sym) with
    | none =>
      rw [hfind] at hmem
      simp only [] at hmem
      rcases mem_insertPos _ _ _ _ hmem with h | h
      · rw [h]; exact hd
      · exact hinv kv h
    | some pos =>
      rw [hfind] at hmem
      simp only [] at hmem
      by_cases hz : pos.quantity + signedDelta side qty = 0
      · rw [if_pos hz] at hmem
        exact hinv kv (mem_erasePos _ _ _ hmem)
      · rw [if_neg hz] at hmem
        rcases mem_insertPos _ _ _ _ hmem with h | h
        · rw [h]
          split <;> exact hz
        · exact hinv kv h
  · intro pos hfind hz
    simp only [update_position, hfind, if_pos hz]
    exact findPos_erasePos_self _ _

/-! ## Order-book claim theorems -/

theorem match_order_zero (ob : OrderBook) (id uid : Nat) (price : Int)
    (side : OrderSide) (order_type : OrderType) :
    match_order ob (mkOrder id uid price 0 side order_type) =
      ([], mkOrder id uid price 0 side order_type, ob) := by
  cases side
  · show match_buy_order ob (mkOrder id uid price 0 OrderSide.Buy order_type) = _
    unfold match_buy_order
    rw [matchLoop_zero buy_crosses ob.orders ob.asks
          (mkOrder id uid price 0 OrderSide.Buy order_type)
          (mkOrder id uid price 0 OrderSide.Buy order_type).quantity rfl]
  · show match_sell_order ob (mkOrder id uid price 0 OrderSide.Sell order_type) = _
    unfold match_sell_order
    rw [matchLoop_zero sell_crosses ob.orders ob.bids
          (mkOrder id uid price 0 OrderSide.Sell order_type)
          (mkOrder id uid price 0 OrderSide.Sell order_type).quantity rfl]

set_option maxRecDepth 8192 in
theorem add_order_zero_eq (ob : OrderBook) (id uid : Nat) (price : Int)
    (side : OrderSide) (order_type : OrderType) :
    add_order ob id uid price 0 side order_type =
      (mkOrder id uid price 0 side order_type, [], store_trades ob []) := by
  rw [add_order.eq_def]
  simp only []
  rw [match_order_zero ob id uid price side order_type]
  rw [if_neg]
  intro hcond
  exact absurd hcond.1 (by simp [mkOrder])

set_option maxRecDepth 8192 in
theorem store_trades_nil (ob : OrderBook) (hring : ob.trades.length ≤ 1000) :
    store_trades ob [] = ob := by
  have h1 : store_trades ob [] =
      { ob with trades := (ob.trades ++ []).drop ((ob.trades ++ []).length - 1000) } := rfl
  rw [h1]
  have hd : (ob.trades ++ []).drop ((ob.trades ++ []).length - 1000) = ob.trades := by
    simp [Nat.sub_eq_zero_of_le hring]
  rw [hd]

/-- C10: submitting an order of quantity 0 (any side, any price, any
kind) emits no trades, returns the order with status `Pending` and
quantity 0, and leaves the book — both price maps, the order map and
the trade ring — unchanged.  (The only hypothesis is the trade-ring
invariant `len ≤ 1000`, which every reachable book satisfies; the
ring-truncation loop in `store_trades` is a no-op under it.) -/
theorem add_order_zero_qty (ob : OrderBook) (id uid : Nat) (price : Int)
    (side : OrderSide) (order_type : OrderType)
    (hring : ob.trades.length ≤ 1000) :
    (add_order ob id uid price 0 side order_type).1.status = OrderStatus.Pending ∧
    (add_order ob id uid price 0 side order_type).1.quantity = 0 ∧
    (add_order ob id uid price 0 side order_type).2.1 = [] ∧
    (add_order ob id uid price 0 side order_type).2.2 = ob := by
  rw [add_order_zero_eq ob id uid price side order_type, store_trades_nil ob hring]
  exact ⟨rfl, rfl, rfl, rfl⟩

set_option maxRecDepth 8192 in
/-- C1: for a Market-kind submission the matching loop ignores the
incoming price — the crossing test holds at every opposite price
level — and any remainder is dropped: the book `add_order` returns has
exactly the ladders and the record map the match phase produced, and
the match phase itself only consumes (its ladders' ids are sublists of
the originals), so a Market order is never inserted into either
ladder. -/
theorem add_order_market_never_rests (ob : OrderBook) (id uid : Nat) (price : Int)
    (qty : Nat) (side : OrderSide) :
    (∀ (o : Order) (p : Int), o.order_type = OrderType.Market →
      buy_crosses o p = true ∧ sell_crosses o p = true) ∧
    ((add_order ob id uid price qty side OrderType.Market).2.2.bids =
      (match_order ob (mkOrder id uid price qty side OrderType.Market)).2.2.bids ∧
     (add_order ob id uid price qty side OrderType.Market).2.2.asks =
      (match_order ob (mkOrder id uid price qty side OrderType.Market)).2.2.asks ∧
     (add_order ob id uid price qty side OrderType.Market).2.2.orders =
      (match_order ob (mkOrder id uid price qty side OrderType.Market)).2.2.orders) ∧
    (ladderIds (add_order ob id uid price qty side OrderType.Market).2.2.bids).Sublist
      (ladderIds ob.bids) ∧
    (ladderIds (add_order ob id uid price qty side OrderType.Market).2.2.asks).Sublist
      (ladderIds ob.asks) := by
  refine ⟨fun o p hM => by simp [buy_crosses, sell_crosses, hM], ?_⟩
  have htype : (match_order ob (mkOrder id uid price qty side OrderType.Market)).2.1.order_type
      = OrderType.Market := by
    cases side <;>
      · simp only [match_order, mkOrder, match_buy_order, match_sell_order]
        exact (matchLoop_taker _ ob.orders _ _ _).1.2.2.2.1
  have hadd : add_order ob id uid price qty side OrderType.Market =
      ((match_order ob (mkOrder id uid price qty side OrderType.Market)).2.1,
       (match_order ob (mkOrder id uid price qty side OrderType.Market)).1,
       store_trades (match_order ob (mkOrder id uid price qty side OrderType.Market)).2.2
         (match_order ob (mkOrder id uid price qty side OrderType.Market)).1) := by
    rw [add_order.eq_def]
    simp only []
    rw [if_neg]
    intro hcond
    rw [htype] at hcond
    exact absurd hcond.2 (by simp)
  rw [hadd]
  have hbids : ∀ (b : OrderBook) ts, (store_trades b ts).bids = b.bids := fun _ _ => rfl
  have hasks : ∀ (b : OrderBook) ts, (store_trades b ts).asks = b.asks := fun _ _ => rfl
  have hords : ∀ (b : OrderBook) ts, (store_trades b ts).orders = b.orders := fun _ _ => rfl
  refine ⟨⟨hbids _ _, hasks _ _, hords _ _⟩, ?_, ?_⟩
  · rw [hbids]
    cases side
    · simp only [match_order, mkOrder, match_buy_order]
      exact List.Sublist.refl _
    · simp only [match_order, mkOrder, match_sell_order]
      exact (matchLoop_ladder sell_crosses ob.orders ob.bids _ _).1
  · rw [hasks]
    cases side
    · simp only [match_order, mkOrder, match_buy_order]
      exact (matchLoop_ladder buy_crosses ob.orders ob.asks _ _).1
    · simp only [match_order, mkOrder, match_sell_order]
      exact List.Sublist.refl _

/-! ## Concrete fixtures and witnesses

A small book: one resting bid (user 11, 5 @ 90), two resting asks
(user 12, 5 @ 100 and user 13, 4 @ 110), and an aggressive incoming
buy (user 19, 7 @ 120) that crosses both ask levels. -/

def o1W : Order :=
  { id := 1, user_id := 11, side := OrderSide.Buy, order_type := OrderType.Limit
    price := 90, quantity := 5, status := OrderStatus.Pending }

def o2W : Order :=
  { id := 2, user_id := 12, side := OrderSide.Sell, order_type := OrderType.Limit
    price := 100, quantity := 5, status := OrderStatus.Pending }

def o3W : Order :=
  { id := 3, user_id := 13, side := OrderSide.Sell, order_type := OrderType.Limit
    price := 110, quantity := 4, status := OrderStatus.Pending }

def obW : OrderBook :=
  { bids := [(90, [1])], asks := [(100, [2]), (110, [3])]
    orders := [(1, o1W), (2, o2W), (3, o3W)], trades := [] }

def oTW : Order := mkOrder 9 19 120 7 OrderSide.Buy OrderType.Limit

def posW : Position :=
  { user_id := 7, symbol := "BTC", quantity := 10, average_price := 50000 }

def storeW : PosStore := [((7, "BTC"), posW)]

theorem match_order_conservation_witness :
    (ladderIds obW.bids).Nodup ∧ (ladderIds obW.asks).Nodup ∧
    ((match_order obW oTW).2.1.quantity ≤ oTW.quantity ∧
     sumQty (match_order obW oTW).1 + (match_order obW oTW).2.1.quantity = oTW.quantity ∧
     (oTW.side = OrderSide.Buy →
       ladderQty obW.orders obW.asks =
         sumQty (match_order obW oTW).1 +
           ladderQty (match_order obW oTW).2.2.orders (match_order obW oTW).2.2.asks) ∧
     (oTW.side = OrderSide.Sell →
       ladderQty obW.orders obW.bids =
         sumQty (match_order obW oTW).1 +
           ladderQty (match_order obW oTW).2.2.orders (match_order obW oTW).2.2.bids)) :=
  ⟨by decide, by decide, match_order_conservation obW oTW (by decide) (by decide)⟩

theorem match_order_price_time_priority_witness :
    List.Chain' (fun a b => a > b) (obW.bids.map Prod.fst) ∧
    List.Chain' (fun a b => a < b) (obW.asks.map Prod.fst) ∧
    ((oTW.side = OrderSide.Buy →
       List.Chain' (fun a b => a ≤ b) ((match_order obW oTW).1.map Trade.price)) ∧
     (oTW.side = OrderSide.Sell →
       List.Chain' (fun a b => a ≥ b) ((match_order obW oTW).1.map Trade.price)) ∧
     (oTW.side = OrderSide.Buy →
       ∀ p queue, levelOf obW.asks p = some queue →
         (((match_order obW oTW).1.filter (fun t => t.price = p)).map
           Trade.maker_order_id).Sublist queue) ∧
     (oTW.side = OrderSide.Sell →
       ∀ p queue, levelOf obW.bids p = some queue →
         (((match_order obW oTW).1.filter (fun t => t.price = p)).map
           Trade.maker_order_id).Sublist queue) ∧
     (∀ (l : Ladder) (p : Int) (i : Nat),
       List.Chain' (fun a b => a < b) (l.map Prod.fst) →
       levelOf (ladderInsert (fun a b => a < b) l p i) p =
         some (((levelOf l p).getD []) ++ [i])) ∧
     (∀ (l : Ladder) (p : Int) (i : Nat),
       List.Chain' (fun a b => a > b) (l.map Prod.fst) →
       levelOf (ladderInsert (fun a b => b < a) l p i) p =
         some (((levelOf l p).getD []) ++ [i]))) :=
  ⟨by simp [obW], by simp [obW],
   match_order_price_time_priority obW oTW (by simp [obW]) (by simp [obW])⟩

theorem match_order_trade_fields_witness :
    wfLadder obW.orders obW.bids ∧ wfLadder obW.orders obW.asks ∧
    (ladderIds obW.bids).Nodup ∧ (ladderIds obW.asks).Nodup ∧
    ((∀ t ∈ (match_order obW oTW).1,
       ∃ m, findOrder obW.orders t.maker_order_id = some m ∧
         t.price = m.price ∧ t.maker_user_id = m.user_id ∧
         t.taker_order_id = oTW.id ∧ t.taker_user_id = oTW.user_id ∧
         0 < t.quantity ∧ t.quantity ≤ m.quantity ∧ t.quantity ≤ oTW.quantity) ∧
     (∀ t, (match_order obW oTW).1.head? = some t →
       ∃ m, findOrder obW.orders t.maker_order_id = some m ∧
         t.quantity = min oTW.quantity m.quantity)) :=
  ⟨by decide, by decide, by decide, by decide,
   match_order_trade_fields obW oTW (by decide) (by decide) (by decide) (by decide)⟩

theorem match_order_status_law_witness :
    wfLadder obW.orders obW.bids ∧ wfLadder obW.orders obW.asks ∧
    (ladderIds obW.bids).Nodup ∧ (ladderIds obW.asks).Nodup ∧
    ((∀ orig rem : Nat,
       (update_order_status orig rem = OrderStatus.Filled ↔ rem = 0) ∧
       (update_order_status orig rem = OrderStatus.PartiallyFilled ↔
         0 < rem ∧ rem < orig) ∧
       (rem ≠ 0 → ¬(0 < rem ∧ rem < orig) →
         update_order_status orig rem = OrderStatus.Pending)) ∧
     ((match_order obW oTW).1 ≠ [] →
       (match_order obW oTW).2.1.status =
         update_order_status oTW.quantity (match_order obW oTW).2.1.quantity) ∧
     (∀ t ∈ (match_order obW oTW).1,
       findOrder (match_order obW oTW).2.2.orders t.maker_order_id = none ∨
       ∃ m2, findOrder (match_order obW oTW).2.2.orders t.maker_order_id = some m2 ∧
         m2.status = OrderStatus.PartiallyFilled ∧ 0 < m2.quantity)) :=
  ⟨by decide, by decide, by decide, by decide,
   match_order_status_law obW oTW (by decide) (by decide) (by decide) (by decide)⟩

theorem depth_functions_spec_witness :
    wfLadder obW.orders obW.bids ∧ wfLadder obW.orders obW.asks ∧
    (get_bids obW = obW.bids.map (fun pq => (pq.1, level_total obW.orders pq.2)) ∧
     get_asks obW = obW.asks.map (fun pq => (pq.1, level_total obW.orders pq.2)) ∧
     (get_bids obW).map Prod.fst = obW.bids.map Prod.fst ∧
     (get_asks obW).map Prod.fst = obW.asks.map Prod.fst ∧
     (∀ pr ∈ get_bids obW, 0 < pr.2) ∧
     (∀ pr ∈ get_asks obW, 0 < pr.2)) :=
  ⟨by decide, by decide, depth_functions_spec obW (by decide) (by decide)⟩

theorem add_order_zero_qty_witness :
    obW.trades.length ≤ 1000 ∧
    ((add_order obW 9 19 120 0 OrderSide.Buy OrderType.Limit).1.status =
       OrderStatus.Pending ∧
     (add_order obW 9 19 120 0 OrderSide.Buy OrderType.Limit).1.quantity = 0 ∧
     (add_order obW 9 19 120 0 OrderSide.Buy OrderType.Limit).2.1 = [] ∧
     (add_order obW 9 19 120 0 OrderSide.Buy OrderType.Limit).2.2 = obW) :=
  ⟨by decide, add_order_zero_qty obW 9 19 120 OrderSide.Buy OrderType.Limit (by decide)⟩

theorem update_position_same_direction_witness :
    findPos storeW (7, upperSym "BTC") = some posW ∧
    ((0 < posW.quantity ∧ 0 < signedDelta OrderSide.Buy 5) ∨
     (posW.quantity < 0 ∧ signedDelta OrderSide.Buy 5 < 0)) ∧
    findPos (update_position storeW 7 "BTC" OrderSide.Buy 52000 5) (7, upperSym "BTC") =
      some { user_id := 7, symbol := upperSym "BTC"
             quantity := posW.quantity + signedDelta OrderSide.Buy 5
             average_price := Int.tdiv
               (posW.average_price * posW.quantity + 52000 * signedDelta OrderSide.Buy 5)
               (posW.quantity + signedDelta OrderSide.Buy 5) } :=
  ⟨by decide, by decide,
   update_position_same_direction storeW 7 "BTC" OrderSide.Buy 52000 5 posW
     (by decide) (by decide)⟩

theorem update_position_opposite_direction_witness :
    findPos storeW (7, upperSym "BTC") = some posW ∧
    ¬ ((0 < posW.quantity ∧ 0 < signedDelta OrderSide.Sell 4) ∨
       (posW.quantity < 0 ∧ signedDelta OrderSide.Sell 4 < 0)) ∧
    posW.quantity + signedDelta OrderSide.Sell 4 ≠ 0 ∧
    findPos (update_position storeW 7 "BTC" OrderSide.Sell 51000 4) (7, upperSym "BTC") =
      some { user_id := 7, symbol := upperSym "BTC"
             quantity := posW.quantity + signedDelta OrderSide.Sell 4
             average_price := posW.average_price } :=
  ⟨by decide, by decide, by decide,
   update_position_opposite_direction storeW 7 "BTC" OrderSide.Sell 51000 4 posW
     (by decide) (by decide) (by decide)⟩

theorem update_position_no_zero_witness :
    0 < 3 ∧ posStoreNoZero storeW ∧
    (posStoreNoZero (update_position storeW 7 "BTC" OrderSide.Sell 51000 3) ∧
     (∀ pos, findPos storeW (7, upperSym "BTC") = some pos →
       pos.quantity + signedDelta OrderSide.Sell 3 = 0 →
       findPos (update_position storeW 7 "BTC" OrderSide.Sell 51000 3)
         (7, upperSym "BTC") = none)) :=
  ⟨by decide, by decide,
   update_position_no_zero storeW 7 "BTC" OrderSide.Sell 51000 3 (by decide) (by decide)⟩

end RustExchange
